import Mathlib

set_option maxHeartbeats 1000000
set_option linter.unusedSectionVars false

namespace HM

/-- One cell of the open-addressing index table, mirroring `TableElement` in
`src/hash_map.h`: `is_used` and `is_erased` are the two tag bits (Empty is
both false, Occupied is `is_used`, Tombstone is `is_erased`), `iter` is the
stable reference into the backing store (modelled as the referenced entry's
numeric node id), and `hash` records the home bucket stored for the key. -/
structure Slot where
  is_used : Bool
  is_erased : Bool
  iter : Nat
  hash : Nat
deriving DecidableEq

/-- The default-constructed `TableElement()`: an Empty slot. -/
def Slot.emptySlot : Slot := ⟨false, false, 0, 0⟩

/-- `TableElement::ErasedElement()`: a Tombstone slot. -/
def Slot.erasedSlot : Slot := ⟨false, true, 0, 0⟩

/-- One node of the backing store `key_value_pairs_` (a `std::list`): `id` is
the node identity (list iterators are modelled as these ids), plus the stored
key/value pair. -/
structure Entry (K V : Type) where
  id : Nat
  key : K
  value : V
deriving DecidableEq

/-- The container state of `HashMap` in `src/hash_map.h`.  `table` models the
vector `table_` (slots at indices `≥ tableSize` are out of bounds and kept at
`Slot.emptySlot`), `kvs` models `key_value_pairs_` in list order, and
`elemIndices`, `tableSize`, `kvsSize`, `nextId` model `elements_indices_`,
`table_size_`, `key_value_pairs_size_` and the allocator of fresh node ids. -/
structure HashMap (K V : Type) where
  table : Nat → Slot
  kvs : List (Entry K V)
  elemIndices : List Nat
  hasher : K → Nat
  tableSize : Nat
  kvsSize : Nat
  nextId : Nat

variable {K V : Type}

/-- Dereference a stored list iterator: find the entry node with the given id.
A `none` result corresponds to a dangling iterator in the C++ code. -/
def lookupId (kvs : List (Entry K V)) (i : Nat) : Option (Entry K V) :=
  kvs.find? (fun e => decide (e.id = i))

/-- `TableElement::UsedAndEqualsOrErased(key)`:
`(is_used && !(iter->first == key)) || is_erased`. -/
def slotSkip [DecidableEq K] (kvs : List (Entry K V)) (key : K) (s : Slot) : Bool :=
  (s.is_used && !((lookupId kvs s.iter).any (fun e => decide (e.key = key)))) || s.is_erased

/-- The index normalisation done at the top of the probe and repair loops:
`if (table_index >= table_size_) table_index = 0;`. -/
def nrm (sz i : Nat) : Nat := if sz ≤ i then 0 else i

/-- The probing loop of `GetHashAndPosition`, with explicit fuel standing for
the unbounded `while (true)`.  Whenever a non-skipped slot exists, fuel
`sz` is enough and the result is fuel-independent (proved below). -/
def probeFrom (skip : Nat → Bool) (sz : Nat) : Nat → Nat → Nat
  | i, 0 => i
  | i, fuel+1 =>
    if skip (nrm sz i) then probeFrom skip sz (nrm sz i + 1) fuel else nrm sz i

/-- Probe resolution against explicit components (used both for the live
container and for the half-built table inside the rebuild loop, where
`table_size_` has already been updated). -/
def probeIn [DecidableEq K] (kvs : List (Entry K V)) (hasher : K → Nat) (sz : Nat)
    (t : Nat → Slot) (key : K) : Nat :=
  probeFrom (fun i => slotSkip kvs key (t i)) sz (hasher key % sz) sz

/-- `GetHash(key) = hasher_(key) % table_size_`. -/
def GetHash (m : HashMap K V) (key : K) : Nat := m.hasher key % m.tableSize

/-- The position component of `GetHashAndPosition(key)`. -/
def probePos [DecidableEq K] (m : HashMap K V) (key : K) : Nat :=
  probeIn m.kvs m.hasher m.tableSize m.table key

/-- `GetHashAndPosition(key)`, returning `(hash, position)`. -/
def GetHashAndPosition [DecidableEq K] (m : HashMap K V) (key : K) : Nat × Nat :=
  (GetHash m key, probePos m key)

/-- Write one slot of the table: `table_[i] = s`. -/
def setSlot (t : Nat → Slot) (i : Nat) (s : Slot) : Nat → Slot :=
  fun j => if j = i then s else t j

/-- The loop `for (size_t table_index : elements_indices_) table_[table_index]
= TableElement();` resetting all listed slots to Empty. -/
def clearListed (t : Nat → Slot) (idxs : List Nat) : Nat → Slot :=
  idxs.foldl (fun t' i => setSlot t' i Slot.emptySlot) t

/-- `table_.resize(newSz)` on a vector previously of size `oldSz`: the first
`min oldSz newSz` cells survive, the rest are default (Empty). -/
def resizeTable (t : Nat → Slot) (oldSz newSz : Nat) : Nat → Slot :=
  fun i => if i < min oldSz newSz then t i else Slot.emptySlot

/-- One iteration of the reinsertion loop at the end of
`RebuildTableIfNeeded`: locate the entry against the new capacity, occupy the
slot, record its index. -/
def rebuildStep [DecidableEq K] (hasher : K → Nat) (kvs : List (Entry K V)) (sz : Nat)
    (acc : (Nat → Slot) × List Nat) (e : Entry K V) : (Nat → Slot) × List Nat :=
  (setSlot acc.1 (probeIn kvs hasher sz acc.1 e.key) ⟨true, false, e.id, hasher e.key % sz⟩,
    acc.2 ++ [probeIn kvs hasher sz acc.1 e.key])

/-- `RebuildTableIfNeeded()`.  The `double` comparison
`(actual_size + 1) * 1.0 / table_size_ < 0.75` is embedded as the exact
rational comparison, i.e. `4 * (actual_size + 1) < 3 * table_size_`; the two
agree for every table size below `2^52`. -/
def RebuildTableIfNeeded [DecidableEq K] (m : HashMap K V) : HashMap K V :=
  if 4 * (m.elemIndices.length + 1) < 3 * m.tableSize then m
  else
    { m with
      table := (m.kvs.foldl (rebuildStep m.hasher m.kvs (m.elemIndices.length * 2))
        (resizeTable (clearListed m.table m.elemIndices) m.tableSize
          (m.elemIndices.length * 2), [])).1,
      tableSize := m.elemIndices.length * 2,
      elemIndices := (m.kvs.foldl (rebuildStep m.hasher m.kvs (m.elemIndices.length * 2))
        (resizeTable (clearListed m.table m.elemIndices) m.tableSize
          (m.elemIndices.length * 2), [])).2 }

/-- `insert(item)`: rebuild if needed, locate, no-op if the slot is Occupied,
otherwise append to the backing store and occupy the Empty slot. -/
def insert [DecidableEq K] (m : HashMap K V) (item : K × V) : HashMap K V :=
  let m1 := RebuildTableIfNeeded m
  let p := probePos m1 item.1
  if (m1.table p).is_used then m1
  else
    { m1 with
      kvs := m1.kvs ++ [⟨m1.nextId, item.1, item.2⟩],
      kvsSize := m1.kvsSize + 1,
      table := setSlot m1.table p ⟨true, false, m1.nextId, GetHash m1 item.1⟩,
      elemIndices := m1.elemIndices ++ [p],
      nextId := m1.nextId + 1 }

/-- The state written by the placing branch of `insert`: append the node to
the backing store, occupy the probe's stop slot, record its index. -/
def placeEntry [DecidableEq K] (M : HashMap K V) (k : K) (v : V) : HashMap K V :=
  { M with
    kvs := M.kvs ++ [⟨M.nextId, k, v⟩],
    kvsSize := M.kvsSize + 1,
    table := setSlot M.table (probePos M k) ⟨true, false, M.nextId, GetHash M k⟩,
    elemIndices := M.elemIndices ++ [probePos M k],
    nextId := M.nextId + 1 }

/-- The deletion-repair loop of `erase`, again with explicit fuel for the
unbounded `while (true)`; fuel `sz` always suffices (the loop stops at the
latest when the scan wraps back to the home bucket). -/
def repairLoop (sz h : Nat) : (Nat → Slot) → Nat → Nat → Nat → (Nat → Slot)
  | t, _gap, _scan, 0 => t
  | t, gap, scan, fuel+1 =>
    if !(t (nrm sz scan)).is_used then t
    else if nrm sz scan = h then t
    else if (t (nrm sz scan)).hash ≠ h then repairLoop sz h t gap (nrm sz scan + 1) fuel
    else repairLoop sz h
      (setSlot (setSlot t gap (t (nrm sz scan))) (nrm sz scan) Slot.erasedSlot)
      (nrm sz scan) (nrm sz scan + 1) fuel

/-- `erase(key)`: locate; if the slot is not Occupied the key is absent and
nothing happens; otherwise detach the referenced node from the backing store,
tombstone the slot, and run local repair from the next position. -/
def erase [DecidableEq K] (m : HashMap K V) (key : K) : HashMap K V :=
  let h := GetHash m key
  let p := probePos m key
  if (m.table p).is_used then
    { m with
      kvs := m.kvs.filter (fun e => !(decide (e.id = (m.table p).iter))),
      kvsSize := m.kvsSize - 1,
      table := repairLoop m.tableSize h (setSlot m.table p Slot.erasedSlot) p (p + 1)
        m.tableSize }
  else m

/-- The state produced by the Occupied branch of `erase`: detach the
referenced node, tombstone the slot, run the repair loop. -/
def eraseState [DecidableEq K] (m : HashMap K V) (k : K) : HashMap K V :=
  { m with
    kvs := m.kvs.filter (fun e => !(decide (e.id = (m.table (probePos m k)).iter))),
    kvsSize := m.kvsSize - 1,
    table := repairLoop m.tableSize (GetHash m k)
      (setSlot m.table (probePos m k) Slot.erasedSlot) (probePos m k)
      (probePos m k + 1) m.tableSize }

/-- `clear()`: reset all listed slots, clamp the capacity up to the floor
(`table_size_ = max(table_size_, 3)` — note this never shrinks a grown
table), resize, and drop all entries. -/
def clear (m : HashMap K V) : HashMap K V :=
  { m with
    table := resizeTable (clearListed m.table m.elemIndices) m.tableSize
      (max m.tableSize 3),
    tableSize := max m.tableSize 3,
    elemIndices := [],
    kvs := [],
    kvsSize := 0 }

/-- The default constructor `HashMap(Hash hasher)`: fields zero-initialised
and then `clear()`. -/
def hashMapNew (K V : Type) (hasher : K → Nat) : HashMap K V :=
  clear { table := fun _ => Slot.emptySlot, kvs := [], elemIndices := [],
          hasher := hasher, tableSize := 0, kvsSize := 0, nextId := 0 }

/-- `size()`. -/
def size (m : HashMap K V) : Nat := m.kvsSize

/-- `empty()` (tests the backing list). -/
def isEmptyMap (m : HashMap K V) : Bool := m.kvs.isEmpty

/-- The keys in iteration (insertion) order, i.e. the key view of traversing
`begin()..end()`. -/
def keysList (m : HashMap K V) : List K := m.kvs.map Entry.key

/-- `find(key)`: the end iterator is `none`; a successful find dereferences to
the backing-store node. -/
def find [DecidableEq K] (m : HashMap K V) (key : K) : Option (Entry K V) :=
  if (m.table (probePos m key)).is_used then lookupId m.kvs (m.table (probePos m key)).iter
  else none

/-- `at(key)`: `none` models the thrown `std::out_of_range` (KeyNotFound);
otherwise the referenced node's value is returned. -/
def atKey [DecidableEq K] (m : HashMap K V) (key : K) : Option V :=
  if (m.table (probePos m key)).is_used then
    (lookupId m.kvs (m.table (probePos m key)).iter).map Entry.value
  else none

/-- Sequential insertion, as done by the range/list constructors and by
copy-assignment. -/
def insertList [DecidableEq K] (m : HashMap K V) (l : List (K × V)) : HashMap K V :=
  l.foldl insert m

/-- The number of Occupied-or-Tombstone slots (`used_count` of the spec). -/
def usedCount (m : HashMap K V) : Nat :=
  ((Finset.range m.tableSize).filter
    (fun i => (m.table i).is_used = true ∨ (m.table i).is_erased = true)).card

/-- A probe stop position: reached from home bucket `h` after skipping `j`
slots, itself not skipped, all earlier probe positions skipped. -/
def stopSpec (skip : Nat → Bool) (sz h p : Nat) : Prop :=
  ∃ j, j < sz ∧ p = (h + j) % sz ∧ skip p = false ∧
    ∀ j', j' < j → skip ((h + j') % sz) = true

/-- The skip predicate of the probe loop for `key` over the live table. -/
def skipFn [DecidableEq K] (m : HashMap K V) (key : K) : Nat → Bool :=
  fun i => slotSkip m.kvs key (m.table i)

/-- The representation invariant of the container, as established by the
constructor and preserved by every public operation (proved below). -/
structure Inv [DecidableEq K] (m : HashMap K V) : Prop where
  tsz : 3 ≤ m.tableSize
  outBounds : ∀ i, m.tableSize ≤ i → m.table i = Slot.emptySlot
  sizeEq : m.kvsSize = m.kvs.length
  idsNodup : (m.kvs.map Entry.id).Nodup
  idsLt : ∀ e ∈ m.kvs, e.id < m.nextId
  keysNodup : (m.kvs.map Entry.key).Nodup
  idxNodup : m.elemIndices.Nodup
  idxLt : ∀ i ∈ m.elemIndices, i < m.tableSize
  emptyOff : ∀ i, i ∉ m.elemIndices → m.table i = Slot.emptySlot
  nonEmptyOn : ∀ i ∈ m.elemIndices, (m.table i).is_used = true ∨ (m.table i).is_erased = true
  load : m.elemIndices.length < m.tableSize
  usedNotErased : ∀ i, (m.table i).is_used = true → (m.table i).is_erased = false
  usedValid : ∀ i, (m.table i).is_used = true → ∃ e ∈ m.kvs, e.id = (m.table i).iter
  usedInj : ∀ i j, (m.table i).is_used = true → (m.table j).is_used = true →
    (m.table i).iter = (m.table j).iter → i = j
  hashOk : ∀ i, (m.table i).is_used = true → ∀ e ∈ m.kvs, e.id = (m.table i).iter →
    (m.table i).hash = m.hasher e.key % m.tableSize
  located : ∀ e ∈ m.kvs, (m.table (probePos m e.key)).is_used = true ∧
    (m.table (probePos m e.key)).iter = e.id

/-- States reachable from a freshly constructed container through the public
mutating operations (`operator[]`'s state change coincides with `insert`, and
the range/list constructors and copy-assignment are sequences of `insert`s on
a fresh container). -/
inductive Reachable [DecidableEq K] : HashMap K V → Prop
  | new (hasher : K → Nat) : Reachable (hashMapNew K V hasher)
  | insert (m : HashMap K V) (item : K × V) : Reachable m → Reachable (HM.insert m item)
  | erase (m : HashMap K V) (key : K) : Reachable m → Reachable (HM.erase m key)
  | clear (m : HashMap K V) : Reachable m → Reachable (HM.clear m)

/-- A two-entry example map over `Nat` keys with the identity hasher. -/
def exM2 : HashMap Nat Nat :=
  insert (insert (hashMapNew Nat Nat (fun n => n)) (0, 10)) (1, 11)

/-- Three inserts with the identity hasher: triggers one rebuild (capacity 4). -/
def exM3 : HashMap Nat Nat :=
  insert exM2 (2, 12)

/-- Insert two and erase both: the backing store is empty but both slots are
tombstoned, so `elements_indices_` still has two entries. -/
def exErased2 : HashMap Nat Nat :=
  erase (erase exM2 0) 1

/-- A three-key cluster under a constant hash function, as in the spec's
repair-correctness test. -/
def exCluster : HashMap Nat Nat :=
  insert (insert (insert (hashMapNew Nat Nat (fun _ => 0)) (1, 10)) (2, 20)) (3, 30)

/-- A one-entry container used as the source of a member-wise (defaulted)
copy construction. -/
def exA : HashMap Nat Nat := insert (hashMapNew Nat Nat (fun n => n)) (1, 10)

section ProbeLemmas

variable {K V : Type}

theorem nrm_eq_mod (sz i : Nat) (h : i ≤ sz) : nrm sz i = i % sz := by
  unfold nrm
  split
  · have hi : i = sz := le_antisymm h (by assumption)
    subst hi
    simp [Nat.mod_self]
  · exact (Nat.mod_eq_of_lt (by omega)).symm

theorem probeFrom_eq (skip : Nat → Bool) (sz : Nat) :
    ∀ fuel i j, i ≤ sz → 0 < sz → j < fuel →
      (∀ j', j' < j → skip ((i + j') % sz) = true) →
      skip ((i + j) % sz) = false →
      probeFrom skip sz i fuel = (i + j) % sz := by
  intro fuel
  induction fuel with
  | zero =>
    intro i j _ _ hj
    exact absurd hj (Nat.not_lt_zero j)
  | succ f ih =>
    intro i j hi hsz hj hpath hstop
    have hn : nrm sz i = i % sz := nrm_eq_mod sz i hi
    have hnlt : nrm sz i < sz := by rw [hn]; exact Nat.mod_lt i hsz
    have key : ∀ l, (nrm sz i + 1 + l) % sz = (i + l + 1) % sz := by
      intro l
      rw [hn, Nat.add_assoc, Nat.mod_add_mod]
      congr 1
      omega
    cases j with
    | zero =>
      have h0 : skip (nrm sz i) = false := by
        rw [hn]
        simpa using hstop
      rw [probeFrom, if_neg (by simp [h0]), hn]
      simp
    | succ j' =>
      have hskip0 : skip (nrm sz i) = true := by
        rw [hn]
        simpa using hpath 0 (Nat.succ_pos j')
      rw [probeFrom, hskip0, if_pos rfl]
      have hres := ih (nrm sz i + 1) j' (by omega) hsz (by omega)
        (by
          intro j'' hj''
          rw [key j'']
          exact hpath (j'' + 1) (by omega))
        (by
          rw [key j']
          exact hstop)
      rw [hres, key j']
      congr 1

theorem stop_exists_least (skip : Nat → Bool) (sz h q : Nat) (hh : h < sz)
    (hq : q < sz) (hqs : skip q = false) :
    ∃ j, j < sz ∧ skip ((h + j) % sz) = false ∧ ∀ j', j' < j → skip ((h + j') % sz) = true := by
  have hsz : 0 < sz := by omega
  have hex : ∃ j, skip ((h + j) % sz) = false := by
    refine ⟨if h ≤ q then q - h else q + sz - h, ?_⟩
    split
    · have : h + (q - h) = q := by omega
      rw [this, Nat.mod_eq_of_lt hq]
      exact hqs
    · have : h + (q + sz - h) = q + sz := by omega
      rw [this, Nat.add_mod_right, Nat.mod_eq_of_lt hq]
      exact hqs
  have hjbound : (if h ≤ q then q - h else q + sz - h) < sz := by
    split <;> omega
  refine ⟨Nat.find hex, ?_, Nat.find_spec hex, ?_⟩
  · exact lt_of_le_of_lt (Nat.find_min' hex (by
      split
      · have : h + (q - h) = q := by omega
        rw [this, Nat.mod_eq_of_lt hq]
        exact hqs
      · have : h + (q + sz - h) = q + sz := by omega
        rw [this, Nat.add_mod_right, Nat.mod_eq_of_lt hq]
        exact hqs)) hjbound
  · intro j' hj'
    have := Nat.find_min hex hj'
    revert this
    cases hcase : skip ((h + j') % sz) <;> simp

theorem probeFrom_stop (skip : Nat → Bool) (sz h q : Nat) (hh : h < sz)
    (hq : q < sz) (hqs : skip q = false) :
    stopSpec skip sz h (probeFrom skip sz h sz) ∧
      ∀ fuel, sz ≤ fuel → probeFrom skip sz h fuel = probeFrom skip sz h sz := by
  have hsz : 0 < sz := by omega
  obtain ⟨j, hj, hjs, hjmin⟩ := stop_exists_least skip sz h q hh hq hqs
  have hbase : probeFrom skip sz h sz = (h + j) % sz :=
    probeFrom_eq skip sz sz h j (le_of_lt hh) hsz hj hjmin hjs
  constructor
  · rw [hbase]
    exact ⟨j, hj, rfl, hjs, hjmin⟩
  · intro fuel hfuel
    rw [hbase]
    exact probeFrom_eq skip sz fuel h j (le_of_lt hh) hsz (by omega) hjmin hjs

theorem stopSpec_unique (skip : Nat → Bool) (sz h p p' : Nat)
    (h1 : stopSpec skip sz h p) (h2 : stopSpec skip sz h p') : p = p' := by
  obtain ⟨j, hj, hp, hs, hmin⟩ := h1
  obtain ⟨j', hj', hp', hs', hmin'⟩ := h2
  rcases Nat.lt_trichotomy j j' with hlt | heq | hgt
  · have := hmin' j hlt
    rw [← hp] at this
    rw [this] at hs
    cases hs
  · rw [hp, hp', heq]
  · have := hmin j' hgt
    rw [← hp'] at this
    rw [this] at hs'
    cases hs'

theorem stopSpec_lt (skip : Nat → Bool) (sz h p : Nat) (hs : stopSpec skip sz h p)
    (hsz : 0 < sz) : p < sz := by
  obtain ⟨j, _, hp, _, _⟩ := hs
  rw [hp]
  exact Nat.mod_lt _ hsz

/-- Stability of a probe stop: if every previously skipped slot is still
skipped and the stop slot is still not skipped, the probe stops at the same
position. -/
theorem stopSpec_stable (skip skip' : Nat → Bool) (sz h p : Nat)
    (hs : stopSpec skip sz h p)
    (hmono : ∀ q, skip q = true → skip' q = true)
    (hp : skip' p = false) : stopSpec skip' sz h p := by
  obtain ⟨j, hj, hpe, _, hmin⟩ := hs
  exact ⟨j, hj, hpe, hp, fun j' hj' => hmono _ (hmin j' hj')⟩

theorem exists_lt_notMem (l : List Nat) (n : Nat) (hlen : l.length < n) :
    ∃ i, i < n ∧ i ∉ l := by
  by_contra hcon
  push_neg at hcon
  have hsub : Finset.range n ⊆ l.toFinset := by
    intro i hi
    rw [List.mem_toFinset]
    exact hcon i (Finset.mem_range.mp hi)
  have h1 := Finset.card_le_card hsub
  rw [Finset.card_range] at h1
  have h2 : l.toFinset.card ≤ l.length := l.toFinset_card_le
  omega

theorem lookupId_mem (kvs : List (Entry K V)) (hnd : (kvs.map Entry.id).Nodup)
    {e : Entry K V} (he : e ∈ kvs) : lookupId kvs e.id = some e := by
  induction kvs with
  | nil => cases he
  | cons a tl ih =>
    rw [List.map_cons, List.nodup_cons] at hnd
    rcases List.mem_cons.mp he with rfl | htl
    · unfold lookupId
      rw [List.find?_cons_of_pos _ (by simp)]
    · have hne : ¬(a.id = e.id) := by
        intro hcontra
        exact hnd.1 (hcontra ▸ List.mem_map_of_mem Entry.id htl)
      unfold lookupId
      rw [List.find?_cons_of_neg _ (by simpa using hne)]
      exact ih hnd.2 htl

theorem lookupId_some {kvs : List (Entry K V)} {i : Nat} {e : Entry K V}
    (h : lookupId kvs i = some e) : e ∈ kvs ∧ e.id = i := by
  refine ⟨List.mem_of_find?_eq_some h, ?_⟩
  have := List.find?_some h
  simpa using this

theorem lookupId_filter (kvs : List (Entry K V)) (x i : Nat) (hne : i ≠ x) :
    lookupId (kvs.filter (fun e => !(decide (e.id = x)))) i = lookupId kvs i := by
  induction kvs with
  | nil => rfl
  | cons a tl ih =>
    by_cases hax : a.id = x
    · have h1 : (a :: tl).filter (fun e => !(decide (e.id = x))) =
          tl.filter (fun e => !(decide (e.id = x))) := by
        simp [List.filter, hax]
      rw [h1, ih]
      have hai : ¬(a.id = i) := by rw [hax]; exact fun hc => hne hc.symm
      unfold lookupId
      rw [List.find?_cons_of_neg _ (by simpa using hai)]
    · have h1 : (a :: tl).filter (fun e => !(decide (e.id = x))) =
          a :: tl.filter (fun e => !(decide (e.id = x))) := by
        simp [List.filter, hax]
      rw [h1]
      by_cases hai : a.id = i
      · unfold lookupId
        rw [List.find?_cons_of_pos _ (by simpa using hai),
          List.find?_cons_of_pos _ (by simpa using hai)]
      · unfold lookupId
        rw [List.find?_cons_of_neg _ (by simpa using hai),
          List.find?_cons_of_neg _ (by simpa using hai)]
        exact ih

theorem lookupId_append_left {kvs : List (Entry K V)} {i : Nat} {e : Entry K V}
    (l : List (Entry K V)) (h : lookupId kvs i = some e) :
    lookupId (kvs ++ l) i = some e := by
  induction kvs with
  | nil => cases h
  | cons a tl ih =>
    unfold lookupId at h ⊢
    rw [List.cons_append]
    by_cases hai : a.id = i
    · rw [List.find?_cons_of_pos _ (by simpa using hai)] at h ⊢
      exact h
    · rw [List.find?_cons_of_neg _ (by simpa using hai)] at h ⊢
      exact ih h

theorem lookupId_append_fresh {kvs : List (Entry K V)} {x : Nat}
    (hfresh : ∀ e ∈ kvs, e.id ≠ x) (e' : Entry K V) (hx : e'.id = x) :
    lookupId (kvs ++ [e']) x = some e' := by
  induction kvs with
  | nil =>
    unfold lookupId
    rw [List.nil_append, List.find?_cons_of_pos _ (by simpa using hx)]
  | cons a tl ih =>
    unfold lookupId
    rw [List.cons_append,
      List.find?_cons_of_neg _ (by simpa using hfresh a (List.mem_cons_self a tl))]
    exact ih (fun e he => hfresh e (List.mem_cons_of_mem a he))

theorem slotSkip_eq_false_iff [DecidableEq K] (kvs : List (Entry K V)) (key : K) (s : Slot) :
    slotSkip kvs key s = false ↔ s.is_erased = false ∧
      (s.is_used = false ∨ ((lookupId kvs s.iter).any (fun e => decide (e.key = key))) = true) := by
  unfold slotSkip
  cases hu : s.is_used <;> cases he : s.is_erased <;>
    simp [hu, he]

theorem option_any_true {α : Type} {o : Option α} {p : α → Bool}
    (h : o.any p = true) : ∃ a, o = some a ∧ p a = true := by
  cases o with
  | none => cases h
  | some a => exact ⟨a, rfl, by simpa using h⟩

theorem slotSkip_empty [DecidableEq K] (kvs : List (Entry K V)) (key : K) :
    slotSkip kvs key Slot.emptySlot = false := rfl

end ProbeLemmas

section InvLemmas

variable {K V : Type} [DecidableEq K]

theorem mem_keysList {m : HashMap K V} {key : K} :
    key ∈ keysList m ↔ ∃ e ∈ m.kvs, e.key = key := by
  unfold keysList
  exact List.mem_map

theorem Inv.tszPos {m : HashMap K V} (h : Inv m) : 0 < m.tableSize := by
  have := h.tsz
  omega

theorem Inv.hashLt {m : HashMap K V} (h : Inv m) (key : K) : GetHash m key < m.tableSize :=
  Nat.mod_lt _ h.tszPos

theorem Inv.existsEmpty {m : HashMap K V} (h : Inv m) :
    ∃ q, q < m.tableSize ∧ m.table q = Slot.emptySlot := by
  obtain ⟨q, hq, hqm⟩ := exists_lt_notMem m.elemIndices m.tableSize h.load
  exact ⟨q, hq, h.emptyOff q hqm⟩

theorem Inv.probe_stop {m : HashMap K V} (h : Inv m) (key : K) :
    stopSpec (skipFn m key) m.tableSize (GetHash m key) (probePos m key) ∧
      ∀ fuel, m.tableSize ≤ fuel →
        probeFrom (skipFn m key) m.tableSize (GetHash m key) fuel = probePos m key := by
  obtain ⟨q, hq, hqe⟩ := h.existsEmpty
  have hqs : skipFn m key q = false := by
    unfold skipFn
    rw [hqe]
    exact slotSkip_empty m.kvs key
  exact probeFrom_stop (skipFn m key) m.tableSize (GetHash m key) q (h.hashLt key) hq hqs

theorem Inv.probe_lt {m : HashMap K V} (h : Inv m) (key : K) :
    probePos m key < m.tableSize :=
  stopSpec_lt _ _ _ _ (h.probe_stop key).1 h.tszPos

theorem Inv.probe_not_skip {m : HashMap K V} (h : Inv m) (key : K) :
    slotSkip m.kvs key (m.table (probePos m key)) = false := by
  obtain ⟨j, _, _, hs, _⟩ := (h.probe_stop key).1
  exact hs

theorem Inv.stop_cases {m : HashMap K V} (h : Inv m) (key : K) :
    (m.table (probePos m key) = Slot.emptySlot ∧ key ∉ keysList m) ∨
      ((m.table (probePos m key)).is_used = true ∧
        ∃ e ∈ m.kvs, e.id = (m.table (probePos m key)).iter ∧ e.key = key) := by
  have hns := h.probe_not_skip key
  rw [slotSkip_eq_false_iff] at hns
  obtain ⟨her, hcases⟩ := hns
  cases hu : (m.table (probePos m key)).is_used with
  | false =>
    left
    have hnotmem : probePos m key ∉ m.elemIndices := by
      intro hmem
      rcases h.nonEmptyOn _ hmem with h1 | h1
      · rw [hu] at h1
        cases h1
      · rw [her] at h1
        cases h1
    have hslot := h.emptyOff _ hnotmem
    refine ⟨hslot, ?_⟩
    intro hkey
    obtain ⟨e, he, hek⟩ := mem_keysList.mp hkey
    have hloc := (h.located e he).1
    rw [hek, hu] at hloc
    cases hloc
  | true =>
    right
    have hany : ((lookupId m.kvs (m.table (probePos m key)).iter).any
        (fun e => decide (e.key = key))) = true := by
      rcases hcases with h1 | h1
      · rw [hu] at h1
        cases h1
      · exact h1
    obtain ⟨e, hle, hpk⟩ := option_any_true hany
    obtain ⟨hmem, hid⟩ := lookupId_some hle
    exact ⟨rfl, e, hmem, hid, by simpa using hpk⟩

theorem Inv.find_mem {m : HashMap K V} (h : Inv m) {e : Entry K V} (he : e ∈ m.kvs) :
    find m e.key = some e := by
  obtain ⟨hu, hit⟩ := h.located e he
  unfold find
  rw [if_pos hu, hit]
  exact lookupId_mem m.kvs h.idsNodup he

theorem Inv.find_notMem {m : HashMap K V} (h : Inv m) {key : K} (hk : key ∉ keysList m) :
    find m key = none := by
  rcases h.stop_cases key with ⟨hslot, _⟩ | ⟨hu, e, hmem, hid, hek⟩
  · unfold find
    rw [if_neg (by simp [hslot, Slot.emptySlot])]
  · exact absurd (mem_keysList.mpr ⟨e, hmem, hek⟩) hk

theorem Inv.find_eq_none_iff {m : HashMap K V} (h : Inv m) (key : K) :
    find m key = none ↔ key ∉ keysList m := by
  constructor
  · intro hnone hkey
    obtain ⟨e, he, hek⟩ := mem_keysList.mp hkey
    have := h.find_mem he
    rw [hek, hnone] at this
    cases this
  · exact h.find_notMem

theorem Inv.find_eq_some_iff {m : HashMap K V} (h : Inv m) (key : K) (e : Entry K V) :
    find m key = some e ↔ e ∈ m.kvs ∧ e.key = key := by
  constructor
  · intro hf
    rcases h.stop_cases key with ⟨hslot, habs⟩ | ⟨hu, e', hmem, hid, hek⟩
    · rw [h.find_notMem habs] at hf
      cases hf
    · unfold find at hf
      rw [if_pos hu, ← hid, lookupId_mem m.kvs h.idsNodup hmem] at hf
      cases hf
      exact ⟨hmem, hek⟩
  · rintro ⟨hmem, rfl⟩
    exact h.find_mem hmem

theorem atKey_eq_map_find (m : HashMap K V) (key : K) :
    atKey m key = (find m key).map Entry.value := by
  unfold atKey find
  by_cases hu : (m.table (probePos m key)).is_used = true
  · rw [if_pos hu, if_pos hu]
  · rw [if_neg hu, if_neg hu]
    rfl

theorem Inv.atKey_none_iff {m : HashMap K V} (h : Inv m) (key : K) :
    atKey m key = none ↔ key ∉ keysList m := by
  rw [atKey_eq_map_find, Option.map_eq_none', h.find_eq_none_iff]

theorem Inv.atKey_mem {m : HashMap K V} (h : Inv m) {e : Entry K V} (he : e ∈ m.kvs) :
    atKey m e.key = some e.value := by
  rw [atKey_eq_map_find, h.find_mem he]
  rfl

theorem Inv.entry_key_unique {m : HashMap K V} (h : Inv m) {e e' : Entry K V}
    (he : e ∈ m.kvs) (he' : e' ∈ m.kvs) (hk : e.key = e'.key) : e = e' :=
  List.inj_on_of_nodup_map h.keysNodup he he' hk

theorem find_congr_kvs {m m' : HashMap K V} (h : Inv m) (h' : Inv m')
    (hk : m'.kvs = m.kvs) (key : K) : find m' key = find m key := by
  by_cases hmem : key ∈ keysList m
  · obtain ⟨e, he, hek⟩ := mem_keysList.mp hmem
    rw [← hek, h.find_mem he, h'.find_mem (by rw [hk]; exact he)]
  · rw [h.find_notMem hmem, h'.find_notMem (by
      unfold keysList
      rw [hk]
      exact hmem)]

theorem Inv.usedCount_eq {m : HashMap K V} (h : Inv m) :
    usedCount m = m.elemIndices.length := by
  unfold usedCount
  have hset : (Finset.range m.tableSize).filter
      (fun i => (m.table i).is_used = true ∨ (m.table i).is_erased = true) =
      m.elemIndices.toFinset := by
    ext i
    simp only [Finset.mem_filter, Finset.mem_range, List.mem_toFinset]
    constructor
    · rintro ⟨hi, hP⟩
      by_contra hmem
      have hemp := h.emptyOff i hmem
      rw [hemp] at hP
      rcases hP with h1 | h1 <;> simp [Slot.emptySlot] at h1
    · intro hmem
      exact ⟨h.idxLt i hmem, h.nonEmptyOn i hmem⟩
  rw [hset, List.toFinset_card_of_nodup h.idxNodup]

end InvLemmas

section ClearLemmas

variable {K V : Type} [DecidableEq K]

theorem setSlot_same (t : Nat → Slot) (i : Nat) (s : Slot) : setSlot t i s i = s := by
  unfold setSlot
  simp

theorem setSlot_other (t : Nat → Slot) (i j : Nat) (s : Slot) (h : j ≠ i) :
    setSlot t i s j = t j := by
  unfold setSlot
  simp [h]

theorem clearListed_eq (idxs : List Nat) : ∀ (t : Nat → Slot) (i : Nat),
    clearListed t idxs i = if i ∈ idxs then Slot.emptySlot else t i := by
  induction idxs with
  | nil =>
    intro t i
    simp [clearListed]
  | cons a tl ih =>
    intro t i
    have hstep : clearListed t (a :: tl) = clearListed (setSlot t a Slot.emptySlot) tl := by
      unfold clearListed
      rw [List.foldl_cons]
    rw [hstep, ih (setSlot t a Slot.emptySlot) i]
    by_cases hi : i ∈ tl
    · simp [hi, List.mem_cons]
    · by_cases ha : i = a
      · subst ha
        simp [hi, setSlot_same]
      · simp [hi, ha, setSlot_other t a i Slot.emptySlot ha]

theorem clear_table {m : HashMap K V} (h : Inv m) :
    ∀ i, (clear m).table i = Slot.emptySlot := by
  intro i
  show resizeTable (clearListed m.table m.elemIndices) m.tableSize (max m.tableSize 3) i =
    Slot.emptySlot
  unfold resizeTable
  split
  · rw [clearListed_eq]
    split
    · rfl
    · exact h.emptyOff i (by assumption)
  · rfl

theorem hashMapNew_table (hasher : K → Nat) :
    ∀ i, (hashMapNew K V hasher).table i = Slot.emptySlot := by
  intro i
  show resizeTable (clearListed (fun _ => Slot.emptySlot) []) 0 (max 0 3) i = Slot.emptySlot
  unfold resizeTable clearListed
  rw [List.foldl_nil]
  split <;> rfl

theorem inv_of_empty (m : HashMap K V) (htab : ∀ i, m.table i = Slot.emptySlot)
    (hkvs : m.kvs = []) (hidx : m.elemIndices = []) (hsz : 3 ≤ m.tableSize)
    (hs : m.kvsSize = 0) : Inv m := by
  refine ⟨hsz, fun i _ => htab i, by rw [hkvs, hs]; rfl, by rw [hkvs]; exact List.nodup_nil,
    ?_, by rw [hkvs]; exact List.nodup_nil, by rw [hidx]; exact List.nodup_nil,
    ?_, fun i _ => htab i, ?_, ?_, ?_, ?_, ?_, ?_, ?_⟩
  · intro e he
    rw [hkvs] at he
    cases he
  · intro i hi
    rw [hidx] at hi
    cases hi
  · intro i hi
    rw [hidx] at hi
    cases hi
  · rw [hidx]
    simpa using by omega
  · intro i hu
    rw [htab i] at hu
    cases hu
  · intro i hu
    rw [htab i] at hu
    cases hu
  · intro i j hu
    rw [htab i] at hu
    cases hu
  · intro i hu
    rw [htab i] at hu
    cases hu
  · intro e he
    rw [hkvs] at he
    cases he

theorem Inv.clearInv {m : HashMap K V} (h : Inv m) : Inv (clear m) :=
  inv_of_empty (clear m) (clear_table h) rfl rfl (le_max_right _ _) rfl

theorem inv_new (hasher : K → Nat) : Inv (hashMapNew K V hasher) :=
  inv_of_empty _ (hashMapNew_table hasher) rfl rfl (le_max_right _ _) rfl

end ClearLemmas

section RebuildLemmas

variable {K V : Type} [DecidableEq K]

theorem probeIn_stopSpec (kvs : List (Entry K V)) (hasher : K → Nat) (sz : Nat)
    (t : Nat → Slot) (key : K) (hsz : 0 < sz)
    (hex : ∃ q, q < sz ∧ slotSkip kvs key (t q) = false) :
    stopSpec (fun i => slotSkip kvs key (t i)) sz (hasher key % sz)
      (probeIn kvs hasher sz t key) := by
  obtain ⟨q, hq, hqs⟩ := hex
  exact (probeFrom_stop _ sz _ q (Nat.mod_lt _ hsz) hq hqs).1

theorem probeIn_eq_of_stopSpec (kvs : List (Entry K V)) (hasher : K → Nat) (sz : Nat)
    (t : Nat → Slot) (key : K) (p : Nat) (hsz : 0 < sz)
    (hex : ∃ q, q < sz ∧ slotSkip kvs key (t q) = false)
    (hs : stopSpec (fun i => slotSkip kvs key (t i)) sz (hasher key % sz) p) :
    probeIn kvs hasher sz t key = p :=
  stopSpec_unique _ _ _ _ _ (probeIn_stopSpec kvs hasher sz t key hsz hex) hs

theorem slotSkip_occupied_self (kvs : List (Entry K V)) (e : Entry K V)
    (hnd : (kvs.map Entry.id).Nodup) (he : e ∈ kvs) (hb : Nat) :
    slotSkip kvs e.key ⟨true, false, e.id, hb⟩ = false := by
  unfold slotSkip
  simp [lookupId_mem kvs hnd he]

theorem keys_disjoint_of_append {P Q : List (Entry K V)}
    (h : ((P ++ Q).map Entry.key).Nodup) {e : Entry K V} (he : e ∈ Q) :
    e.key ∉ P.map Entry.key := by
  rw [List.map_append, List.nodup_append] at h
  exact fun hc => h.2.2 hc (List.mem_map_of_mem Entry.key he)

theorem Inv.kvs_le_idx {m : HashMap K V} (h : Inv m) :
    m.kvs.length ≤ m.elemIndices.length := by
  classical
  have hkNodup : m.kvs.Nodup := h.idsNodup.of_map
  have hmapsto : ∀ e ∈ m.kvs.toFinset, probePos m e.key ∈ m.elemIndices.toFinset := by
    intro e he
    rw [List.mem_toFinset] at he ⊢
    have hu := (h.located e he).1
    by_contra hnm
    rw [h.emptyOff _ hnm] at hu
    simp [Slot.emptySlot] at hu
  have hinj : Set.InjOn (fun e : Entry K V => probePos m e.key) m.kvs.toFinset := by
    intro e he e' he' hpe
    rw [Finset.mem_coe, List.mem_toFinset] at he he'
    have h1 := h.located e he
    have h2 := h.located e' he'
    simp only at hpe
    rw [hpe] at h1
    have hid : e.id = e'.id := by
      rw [← h1.2]
      exact h2.2
    exact List.inj_on_of_nodup_map h.idsNodup he he' hid
  have hcard := Finset.card_le_card_of_injOn _ hmapsto hinj
  rw [List.toFinset_card_of_nodup hkNodup] at hcard
  exact le_trans hcard (List.toFinset_card_le _)

/-- Invariant of the reinsertion loop at the end of `RebuildTableIfNeeded`:
`P` is the already-reindexed prefix of the backing store, `t` the table built
so far, `xs` the indices recorded so far. -/
structure RLoopInv (hasher : K → Nat) (kvs : List (Entry K V)) (sz : Nat)
    (P : List (Entry K V)) (t : Nat → Slot) (xs : List Nat) : Prop where
  xsNodup : xs.Nodup
  xsLt : ∀ i ∈ xs, i < sz
  xsLen : xs.length = P.length
  offEmpty : ∀ i, i ∉ xs → t i = Slot.emptySlot
  onUsed : ∀ i ∈ xs, (t i).is_used = true
  noErased : ∀ i, (t i).is_erased = false
  usedP : ∀ i, (t i).is_used = true → ∃ e ∈ P, e.id = (t i).iter
  usedInjT : ∀ i j, (t i).is_used = true → (t j).is_used = true →
    (t i).iter = (t j).iter → i = j
  hashT : ∀ i, (t i).is_used = true → ∀ e ∈ kvs, e.id = (t i).iter →
    (t i).hash = hasher e.key % sz
  locP : ∀ e ∈ P, (t (probeIn kvs hasher sz t e.key)).is_used = true ∧
    (t (probeIn kvs hasher sz t e.key)).iter = e.id

theorem rebuild_step_inv (hasher : K → Nat) (kvs : List (Entry K V)) (sz : Nat)
    (hsz : 0 < sz) (hnodup : (kvs.map Entry.id).Nodup)
    (hknodup : (kvs.map Entry.key).Nodup)
    (P es' : List (Entry K V)) (e : Entry K V) (hPE : kvs = P ++ e :: es')
    (hlen : kvs.length < sz) (t : Nat → Slot) (xs : List Nat)
    (hI : RLoopInv hasher kvs sz P t xs) :
    RLoopInv hasher kvs sz (P ++ [e])
      (rebuildStep hasher kvs sz (t, xs) e).1 (rebuildStep hasher kvs sz (t, xs) e).2 := by
  have hPlen : P.length < sz := by
    have := congrArg List.length hPE
    simp only [List.length_append, List.length_cons] at this
    omega
  have hxslen : xs.length < sz := by
    rw [hI.xsLen]
    exact hPlen
  obtain ⟨q0, hq0, hq0m⟩ := exists_lt_notMem xs sz hxslen
  have hq0e : t q0 = Slot.emptySlot := hI.offEmpty q0 hq0m
  have hex : ∀ key : K, ∃ q, q < sz ∧ slotSkip kvs key (t q) = false := fun key =>
    ⟨q0, hq0, by rw [hq0e]; exact slotSkip_empty kvs key⟩
  have hstop := probeIn_stopSpec kvs hasher sz t e.key hsz (hex e.key)
  have hep : e ∈ kvs := by
    rw [hPE]
    exact List.mem_append_right P (List.mem_cons_self e es')
  have heP : e.key ∉ P.map Entry.key :=
    keys_disjoint_of_append (hPE ▸ hknodup) (List.mem_cons_self e es')
  have hskipp : slotSkip kvs e.key (t (probeIn kvs hasher sz t e.key)) = false := by
    obtain ⟨j, _, _, hs, _⟩ := hstop
    exact hs
  have hpu : (t (probeIn kvs hasher sz t e.key)).is_used = false := by
    cases hu : (t (probeIn kvs hasher sz t e.key)).is_used
    · rfl
    · exfalso
      have hiff := (slotSkip_eq_false_iff kvs e.key _).mp hskipp
      have hany : ((lookupId kvs (t (probeIn kvs hasher sz t e.key)).iter).any
          (fun e' => decide (e'.key = e.key))) = true := by
        rcases hiff.2 with h1 | h1
        · rw [hu] at h1
          cases h1
        · exact h1
      obtain ⟨e'', hle, hpk⟩ := option_any_true hany
      obtain ⟨e', he'P, hid'⟩ := hI.usedP _ hu
      have hle' : lookupId kvs (t (probeIn kvs hasher sz t e.key)).iter = some e' := by
        rw [← hid']
        exact lookupId_mem kvs hnodup (by rw [hPE]; exact List.mem_append_left _ he'P)
      rw [hle'] at hle
      cases hle
      exact heP (by
        rw [← (by simpa using hpk : e''.key = e.key)]
        exact List.mem_map_of_mem Entry.key he'P)
  have hpxs : probeIn kvs hasher sz t e.key ∉ xs := by
    intro hc
    rw [hI.onUsed _ hc] at hpu
    cases hpu
  have hpempty : t (probeIn kvs hasher sz t e.key) = Slot.emptySlot := hI.offEmpty _ hpxs
  have hplt : probeIn kvs hasher sz t e.key < sz := stopSpec_lt _ _ _ _ hstop hsz
  have hstep : rebuildStep hasher kvs sz (t, xs) e =
      (setSlot t (probeIn kvs hasher sz t e.key) ⟨true, false, e.id, hasher e.key % sz⟩,
        xs ++ [probeIn kvs hasher sz t e.key]) := rfl
  rw [hstep]
  set p := probeIn kvs hasher sz t e.key with hpdef
  set t' := setSlot t p ⟨true, false, e.id, hasher e.key % sz⟩ with htPdef
  have ht'p : t' p = ⟨true, false, e.id, hasher e.key % sz⟩ := setSlot_same t p _
  have ht'o : ∀ i, i ≠ p → t' i = t i := fun i hi => setSlot_other t p i _ hi
  have hlen' : (xs ++ [p]).length < sz := by
    rw [List.length_append, List.length_cons, List.length_nil, hI.xsLen]
    have := congrArg List.length hPE
    simp only [List.length_append, List.length_cons] at this
    omega
  have hoff' : ∀ i, i ∉ xs ++ [p] → t' i = Slot.emptySlot := by
    intro i hi
    rw [List.mem_append] at hi
    push_neg at hi
    have hip : i ≠ p := by
      intro hc
      exact hi.2 (by rw [hc]; exact List.mem_cons_self p [])
    rw [ht'o i hip]
    exact hI.offEmpty i hi.1
  have hex' : ∀ key : K, ∃ q, q < sz ∧ slotSkip kvs key (t' q) = false := by
    intro key
    obtain ⟨q1, hq1, hq1m⟩ := exists_lt_notMem (xs ++ [p]) sz hlen'
    exact ⟨q1, hq1, by rw [hoff' q1 hq1m]; exact slotSkip_empty kvs key⟩
  show RLoopInv hasher kvs sz (P ++ [e]) t' (xs ++ [p])
  refine ⟨?_, ?_, ?_, hoff', ?_, ?_, ?_, ?_, ?_, ?_⟩
  · rw [List.nodup_append]
    exact ⟨hI.xsNodup, List.nodup_singleton p, by
      intro a ha hamem
      rw [List.mem_singleton] at hamem
      exact hpxs (hamem ▸ ha)⟩
  · intro i hi
    rw [List.mem_append, List.mem_singleton] at hi
    rcases hi with hi | rfl
    · exact hI.xsLt i hi
    · exact hplt
  · rw [List.length_append, List.length_append]
    simp [hI.xsLen]
  · intro i hi
    rw [List.mem_append, List.mem_singleton] at hi
    rcases hi with hi | rfl
    · rw [ht'o i (fun hc => hpxs (hc ▸ hi))]
      exact hI.onUsed i hi
    · rw [ht'p]
  · intro i
    by_cases hip : i = p
    · rw [hip, ht'p]
    · rw [ht'o i hip]
      exact hI.noErased i
  · intro i hu
    by_cases hip : i = p
    · rw [hip, ht'p]
      exact ⟨e, List.mem_append_right P (List.mem_cons_self e []), rfl⟩
    · rw [ht'o i hip] at hu ⊢
      obtain ⟨e', he', hid⟩ := hI.usedP i hu
      exact ⟨e', List.mem_append_left _ he', hid⟩
  · intro i j hui huj hij
    by_cases hip : i = p <;> by_cases hjp : j = p
    · rw [hip, hjp]
    · exfalso
      rw [hip, ht'p] at hij
      rw [ht'o j hjp] at huj hij
      obtain ⟨e', he', hid⟩ := hI.usedP j huj
      have heq : e' = e := List.inj_on_of_nodup_map hnodup
        (by rw [hPE]; exact List.mem_append_left _ he') hep (by rw [hid, ← hij])
      exact heP (by rw [← heq]; exact List.mem_map_of_mem Entry.key he')
    · exfalso
      rw [hjp, ht'p] at hij
      rw [ht'o i hip] at hui hij
      obtain ⟨e', he', hid⟩ := hI.usedP i hui
      have heq : e' = e := List.inj_on_of_nodup_map hnodup
        (by rw [hPE]; exact List.mem_append_left _ he') hep (by rw [hid, hij])
      exact heP (by rw [← heq]; exact List.mem_map_of_mem Entry.key he')
    · rw [ht'o i hip] at hui hij
      rw [ht'o j hjp] at huj hij
      exact hI.usedInjT i j hui huj hij
  · intro i hu e' he' hid
    by_cases hip : i = p
    · rw [hip, ht'p] at hid ⊢
      have heq : e' = e := List.inj_on_of_nodup_map hnodup he' hep (by simpa using hid)
      rw [heq]
    · rw [ht'o i hip] at hu hid ⊢
      exact hI.hashT i hu e' he' hid
  · intro e' he'
    rw [List.mem_append, List.mem_singleton] at he'
    rcases he' with he' | rfl
    · have hold := hI.locP e' he'
      have hp'stop := probeIn_stopSpec kvs hasher sz t e'.key hsz (hex e'.key)
      have hp'ne : probeIn kvs hasher sz t e'.key ≠ p := by
        intro hc
        rw [hc] at hold
        rw [hold.1] at hpu
        cases hpu
      have hs' : stopSpec (fun i => slotSkip kvs e'.key (t' i)) sz (hasher e'.key % sz)
          (probeIn kvs hasher sz t e'.key) := by
        apply stopSpec_stable _ _ _ _ _ hp'stop
        · intro q hq
          by_cases hqp : q = p
          · exfalso
            rw [hqp, hpempty] at hq
            rw [slotSkip_empty] at hq
            cases hq
          · rw [ht'o q hqp]
            exact hq
        · rw [ht'o _ hp'ne]
          obtain ⟨j, _, _, hsf, _⟩ := hp'stop
          exact hsf
      have hpeq := probeIn_eq_of_stopSpec kvs hasher sz t' e'.key _ hsz (hex' e'.key) hs'
      rw [hpeq, ht'o _ hp'ne]
      exact hold
    · have hs' : stopSpec (fun i => slotSkip kvs e'.key (t' i)) sz (hasher e'.key % sz) p := by
        apply stopSpec_stable _ _ _ _ _ hstop
        · intro q hq
          by_cases hqp : q = p
          · exfalso
            rw [hqp, hpempty] at hq
            rw [slotSkip_empty] at hq
            cases hq
          · rw [ht'o q hqp]
            exact hq
        · rw [ht'p]
          exact slotSkip_occupied_self kvs e' hnodup hep _
      have hpeq := probeIn_eq_of_stopSpec kvs hasher sz t' e'.key p hsz (hex' e'.key) hs'
      rw [hpeq, ht'p]
      exact ⟨rfl, rfl⟩

theorem rebuild_fold (hasher : K → Nat) (kvs : List (Entry K V)) (sz : Nat)
    (hsz : 0 < sz) (hlen : kvs.length < sz)
    (hnodup : (kvs.map Entry.id).Nodup) (hknodup : (kvs.map Entry.key).Nodup) :
    ∀ (es P : List (Entry K V)) (t : Nat → Slot) (xs : List Nat),
      kvs = P ++ es → RLoopInv hasher kvs sz P t xs →
      RLoopInv hasher kvs sz kvs (es.foldl (rebuildStep hasher kvs sz) (t, xs)).1
        (es.foldl (rebuildStep hasher kvs sz) (t, xs)).2 := by
  intro es
  induction es with
  | nil =>
    intro P t xs hPE hI
    rw [List.foldl_nil]
    rw [List.append_nil] at hPE
    rw [← hPE] at hI
    exact hI
  | cons e es' ih =>
    intro P t xs hPE hI
    rw [List.foldl_cons]
    have hstep := rebuild_step_inv hasher kvs sz hsz hnodup hknodup P es' e hPE hlen t xs hI
    have hPE' : kvs = (P ++ [e]) ++ es' := by
      rw [hPE, List.append_assoc]
      rfl
    exact ih (P ++ [e]) (rebuildStep hasher kvs sz (t, xs) e).1
      (rebuildStep hasher kvs sz (t, xs) e).2 hPE' hstep

theorem rebuild_spec {m : HashMap K V} (h : Inv m) :
    Inv (RebuildTableIfNeeded m) ∧ (RebuildTableIfNeeded m).kvs = m.kvs ∧
      (RebuildTableIfNeeded m).hasher = m.hasher ∧
      (RebuildTableIfNeeded m).nextId = m.nextId ∧
      (RebuildTableIfNeeded m).kvsSize = m.kvsSize ∧
      (RebuildTableIfNeeded m).elemIndices.length + 1 < (RebuildTableIfNeeded m).tableSize ∧
      m.tableSize ≤ (RebuildTableIfNeeded m).tableSize := by
  unfold RebuildTableIfNeeded
  by_cases hcond : 4 * (m.elemIndices.length + 1) < 3 * m.tableSize
  · rw [if_pos hcond]
    have h3 := h.tsz
    exact ⟨h, rfl, rfl, rfl, rfl, by omega, le_refl _⟩
  · rw [if_neg hcond]
    have h3 := h.tsz
    have ha2 : 2 ≤ m.elemIndices.length := by omega
    have hn := h.kvs_le_idx
    have hszpos : 0 < m.elemIndices.length * 2 := by omega
    have hlen : m.kvs.length < m.elemIndices.length * 2 := by omega
    have htinit : ∀ i, resizeTable (clearListed m.table m.elemIndices) m.tableSize
        (m.elemIndices.length * 2) i = Slot.emptySlot := by
      intro i
      unfold resizeTable
      split
      · rw [clearListed_eq]
        split
        · rfl
        · exact h.emptyOff i (by assumption)
      · rfl
    have hI0 : RLoopInv m.hasher m.kvs (m.elemIndices.length * 2) []
        (resizeTable (clearListed m.table m.elemIndices) m.tableSize
          (m.elemIndices.length * 2)) [] := by
      refine ⟨List.nodup_nil, ?_, rfl, fun i _ => htinit i, ?_, ?_, ?_, ?_, ?_, ?_⟩
      · intro i hi
        cases hi
      · intro i hi
        cases hi
      · intro i
        rw [htinit i]
        rfl
      · intro i hu
        rw [htinit i] at hu
        cases hu
      · intro i j hu
        rw [htinit i] at hu
        cases hu
      · intro i hu
        rw [htinit i] at hu
        cases hu
      · intro e he
        cases he
    have hfold := rebuild_fold m.hasher m.kvs (m.elemIndices.length * 2) hszpos hlen
      h.idsNodup h.keysNodup m.kvs [] _ [] (List.nil_append m.kvs).symm hI0
    refine ⟨?_, rfl, rfl, rfl, rfl, ?_, ?_⟩
    · refine ⟨by show 3 ≤ m.elemIndices.length * 2; omega, ?_, h.sizeEq, h.idsNodup,
        h.idsLt, h.keysNodup, hfold.xsNodup, hfold.xsLt, hfold.offEmpty,
        fun i hi => Or.inl (hfold.onUsed i hi), ?_, fun i _ => hfold.noErased i,
        hfold.usedP, hfold.usedInjT, hfold.hashT, hfold.locP⟩
      · intro i hi
        have hi' : m.elemIndices.length * 2 ≤ i := hi
        apply hfold.offEmpty
        intro hc
        exact absurd (hfold.xsLt i hc) (by omega)
      · show (m.kvs.foldl (rebuildStep m.hasher m.kvs (m.elemIndices.length * 2))
          (resizeTable (clearListed m.table m.elemIndices) m.tableSize
            (m.elemIndices.length * 2), [])).2.length < m.elemIndices.length * 2
        rw [hfold.xsLen]
        omega
    · show (m.kvs.foldl (rebuildStep m.hasher m.kvs (m.elemIndices.length * 2))
        (resizeTable (clearListed m.table m.elemIndices) m.tableSize
          (m.elemIndices.length * 2), [])).2.length + 1 < m.elemIndices.length * 2
      rw [hfold.xsLen]
      omega
    · show m.tableSize ≤ m.elemIndices.length * 2
      omega

end RebuildLemmas

section InsertLemmas

variable {K V : Type} [DecidableEq K]

theorem insert_def_reduce (m : HashMap K V) (k : K) (v : V) :
    insert m (k, v) =
      (if ((RebuildTableIfNeeded m).table
            (probePos (RebuildTableIfNeeded m) k)).is_used = true
        then RebuildTableIfNeeded m
        else placeEntry (RebuildTableIfNeeded m) k v) := rfl

theorem slotSkip_append (kvs : List (Entry K V)) (eN : Entry K V) (x : K) (s : Slot)
    (hs : s.is_used = true → ∃ e0, lookupId kvs s.iter = some e0) :
    slotSkip (kvs ++ [eN]) x s = slotSkip kvs x s := by
  unfold slotSkip
  cases hu : s.is_used
  · simp
  · obtain ⟨e0, he0⟩ := hs hu
    rw [lookupId_append_left [eN] he0, he0]

theorem insert_of_used {m : HashMap K V} {k : K} (v : V)
    (hu : ((RebuildTableIfNeeded m).table
      (probePos (RebuildTableIfNeeded m) k)).is_used = true) :
    insert m (k, v) = RebuildTableIfNeeded m := by
  rw [insert_def_reduce, if_pos hu]

theorem insert_spec_mem {m : HashMap K V} (h : Inv m) {k : K} (hk : k ∈ keysList m) (v : V) :
    insert m (k, v) = RebuildTableIfNeeded m := by
  obtain ⟨hInv1, hkvs1, _, _, _, _, _⟩ := rebuild_spec h
  obtain ⟨e, he, hek⟩ := mem_keysList.mp hk
  have he1 : e ∈ (RebuildTableIfNeeded m).kvs := by
    rw [hkvs1]
    exact he
  have hu := (hInv1.located e he1).1
  rw [hek] at hu
  exact insert_of_used v hu

theorem place_spec {M : HashMap K V} (hm : Inv M) {k : K} (hkM : k ∉ keysList M) (v : V)
    (hload : M.elemIndices.length + 1 < M.tableSize) :
    M.table (probePos M k) = Slot.emptySlot ∧ Inv (placeEntry M k v) := by
  have hslot : M.table (probePos M k) = Slot.emptySlot := by
    rcases hm.stop_cases k with ⟨hs, _⟩ | ⟨hu, e, hme, hid, hek⟩
    · exact hs
    · exact absurd (mem_keysList.mpr ⟨e, hme, hek⟩) hkM
  refine ⟨hslot, ?_⟩
  have hplt := hm.probe_lt k
  have hpfree : probePos M k ∉ M.elemIndices := by
    intro hc
    rcases hm.nonEmptyOn _ hc with h1 | h1 <;> rw [hslot] at h1 <;>
      simp [Slot.emptySlot] at h1
  have hidfresh : ∀ e ∈ M.kvs, e.id ≠ M.nextId :=
    fun e he => Nat.ne_of_lt (hm.idsLt e he)
  have hkeyne : ∀ e ∈ M.kvs, e.key ≠ k := by
    intro e he hc
    exact hkM (mem_keysList.mpr ⟨e, he, hc⟩)
  set p := probePos M k with hpdef
  set eN : Entry K V := ⟨M.nextId, k, v⟩ with heNdef
  set tN := setSlot M.table p ⟨true, false, M.nextId, GetHash M k⟩ with htNdef
  have htNp : tN p = ⟨true, false, M.nextId, GetHash M k⟩ := setSlot_same _ _ _
  have htNo : ∀ i, i ≠ p → tN i = M.table i := fun i hi => setSlot_other _ _ _ _ hi
  have hskip_pres : ∀ (x : K) (q : Nat), q ≠ p →
      slotSkip (M.kvs ++ [eN]) x (tN q) = slotSkip M.kvs x (M.table q) := by
    intro x q hq
    rw [htNo q hq]
    apply slotSkip_append
    intro hu
    obtain ⟨e0, he0, hid0⟩ := hm.usedValid q hu
    exact ⟨e0, by rw [← hid0]; exact lookupId_mem _ hm.idsNodup he0⟩
  have hlookN : lookupId (M.kvs ++ [eN]) M.nextId = some eN :=
    lookupId_append_fresh hidfresh eN rfl
  have hskipN : slotSkip (M.kvs ++ [eN]) k ⟨true, false, M.nextId, GetHash M k⟩ = false := by
    unfold slotSkip
    simp [hlookN, heNdef]
  have hlenp : (M.elemIndices ++ [p]).length < M.tableSize := by
    rw [List.length_append]
    simpa using hload
  have hoffN : ∀ i, i ∉ M.elemIndices ++ [p] → tN i = Slot.emptySlot := by
    intro i hi
    rw [List.mem_append, List.mem_singleton] at hi
    push_neg at hi
    rw [htNo i hi.2]
    exact hm.emptyOff i hi.1
  have hexN : ∀ x : K, ∃ q, q < M.tableSize ∧ slotSkip (M.kvs ++ [eN]) x (tN q) = false := by
    intro x
    obtain ⟨q1, hq1, hq1m⟩ := exists_lt_notMem (M.elemIndices ++ [p]) M.tableSize hlenp
    exact ⟨q1, hq1, by rw [hoffN q1 hq1m]; exact slotSkip_empty _ x⟩
  have hmono : ∀ x : K, ∀ q, slotSkip M.kvs x (M.table q) = true →
      slotSkip (M.kvs ++ [eN]) x (tN q) = true := by
    intro x q hq
    by_cases hqp : q = p
    · exfalso
      rw [hqp, hslot, slotSkip_empty] at hq
      cases hq
    · rw [hskip_pres x q hqp]
      exact hq
  refine ⟨hm.tsz, ?_, ?_, ?_, ?_, ?_, ?_, ?_, ?_, ?_, ?_, ?_, ?_, ?_, ?_, ?_⟩
  · show ∀ i, M.tableSize ≤ i → tN i = Slot.emptySlot
    intro i hi
    have hip : i ≠ p := by
      intro hc
      rw [hc] at hi
      omega
    rw [htNo i hip]
    exact hm.outBounds i hi
  · show M.kvsSize + 1 = (M.kvs ++ [eN]).length
    rw [List.length_append, hm.sizeEq]
    rfl
  · show ((M.kvs ++ [eN]).map Entry.id).Nodup
    rw [List.map_append, List.nodup_append]
    refine ⟨hm.idsNodup, List.nodup_singleton _, ?_⟩
    intro a ha hamem
    rw [List.map_singleton, List.mem_singleton] at hamem
    obtain ⟨e0, he0, hid0⟩ := List.mem_map.mp ha
    exact hidfresh e0 he0 (by rw [hid0, hamem])
  · show ∀ e ∈ M.kvs ++ [eN], e.id < M.nextId + 1
    intro e he
    rw [List.mem_append, List.mem_singleton] at he
    rcases he with he | rfl
    · exact Nat.lt_succ_of_lt (hm.idsLt e he)
    · exact Nat.lt_succ_self _
  · show ((M.kvs ++ [eN]).map Entry.key).Nodup
    rw [List.map_append, List.nodup_append]
    refine ⟨hm.keysNodup, List.nodup_singleton _, ?_⟩
    intro a ha hamem
    rw [List.map_singleton, List.mem_singleton] at hamem
    obtain ⟨e0, he0, hid0⟩ := List.mem_map.mp ha
    exact hkeyne e0 he0 (by rw [hid0, hamem])
  · show (M.elemIndices ++ [p]).Nodup
    rw [List.nodup_append]
    refine ⟨hm.idxNodup, List.nodup_singleton _, ?_⟩
    intro a ha hamem
    rw [List.mem_singleton] at hamem
    exact hpfree (hamem ▸ ha)
  · show ∀ i ∈ M.elemIndices ++ [p], i < M.tableSize
    intro i hi
    rw [List.mem_append, List.mem_singleton] at hi
    rcases hi with hi | rfl
    · exact hm.idxLt i hi
    · exact hplt
  · show ∀ i, i ∉ M.elemIndices ++ [p] → tN i = Slot.emptySlot
    exact hoffN
  · show ∀ i ∈ M.elemIndices ++ [p], (tN i).is_used = true ∨ (tN i).is_erased = true
    intro i hi
    rw [List.mem_append, List.mem_singleton] at hi
    rcases hi with hi | rfl
    · have hip : i ≠ p := fun hc => hpfree (hc ▸ hi)
      rw [htNo i hip]
      exact hm.nonEmptyOn i hi
    · rw [htNp]
      left
      rfl
  · show (M.elemIndices ++ [p]).length < M.tableSize
    exact hlenp
  · show ∀ i, (tN i).is_used = true → (tN i).is_erased = false
    intro i hu
    by_cases hip : i = p
    · rw [hip, htNp]
    · rw [htNo i hip] at hu ⊢
      exact hm.usedNotErased i hu
  · show ∀ i, (tN i).is_used = true → ∃ e ∈ M.kvs ++ [eN], e.id = (tN i).iter
    intro i hu
    by_cases hip : i = p
    · refine ⟨eN, List.mem_append_right _ (List.mem_cons_self _ _), ?_⟩
      rw [hip, htNp]
    · rw [htNo i hip] at hu ⊢
      obtain ⟨e0, he0, hid0⟩ := hm.usedValid i hu
      exact ⟨e0, List.mem_append_left _ he0, hid0⟩
  · show ∀ i j, (tN i).is_used = true → (tN j).is_used = true →
      (tN i).iter = (tN j).iter → i = j
    intro i j hui huj hij
    by_cases hip : i = p <;> by_cases hjp : j = p
    · rw [hip, hjp]
    · exfalso
      rw [hip, htNp] at hij
      rw [htNo j hjp] at huj hij
      obtain ⟨e0, he0, hid0⟩ := hm.usedValid j huj
      exact hidfresh e0 he0 (by rw [hid0, ← hij])
    · exfalso
      rw [hjp, htNp] at hij
      rw [htNo i hip] at hui hij
      obtain ⟨e0, he0, hid0⟩ := hm.usedValid i hui
      exact hidfresh e0 he0 (by rw [hid0, hij])
    · rw [htNo i hip] at hui hij
      rw [htNo j hjp] at huj hij
      exact hm.usedInj i j hui huj hij
  · show ∀ i, (tN i).is_used = true → ∀ e ∈ M.kvs ++ [eN], e.id = (tN i).iter →
      (tN i).hash = M.hasher e.key % M.tableSize
    intro i hu e' he' hid'
    rw [List.mem_append, List.mem_singleton] at he'
    by_cases hip : i = p
    · rw [hip, htNp] at hid' ⊢
      rcases he' with he' | rfl
      · exact absurd (by simpa using hid') (hidfresh e' he')
      · show GetHash M k = M.hasher eN.key % M.tableSize
        rfl
    · rw [htNo i hip] at hu hid' ⊢
      rcases he' with he' | rfl
      · exact hm.hashOk i hu e' he' hid'
      · exfalso
        obtain ⟨e0, he0, hid0⟩ := hm.usedValid i hu
        exact hidfresh e0 he0 (by rw [hid0, ← hid'])
  · show ∀ e ∈ M.kvs ++ [eN],
      (tN (probeIn (M.kvs ++ [eN]) M.hasher M.tableSize tN e.key)).is_used = true ∧
      (tN (probeIn (M.kvs ++ [eN]) M.hasher M.tableSize tN e.key)).iter = e.id
    intro e he
    rw [List.mem_append, List.mem_singleton] at he
    rcases he with he | rfl
    · have hstopOld := (hm.probe_stop e.key).1
      have hpe_ne : probePos M e.key ≠ p := by
        intro hc
        have := (hm.located e he).1
        rw [hc, hslot] at this
        simp [Slot.emptySlot] at this
      have hs' : stopSpec (fun i => slotSkip (M.kvs ++ [eN]) e.key (tN i)) M.tableSize
          (M.hasher e.key % M.tableSize) (probePos M e.key) := by
        apply stopSpec_stable _ _ _ _ _ hstopOld (hmono e.key)
        rw [hskip_pres e.key _ hpe_ne]
        exact hm.probe_not_skip e.key
      have hpeq : probeIn (M.kvs ++ [eN]) M.hasher M.tableSize tN e.key = probePos M e.key :=
        probeIn_eq_of_stopSpec _ _ _ _ _ _ hm.tszPos (hexN e.key) hs'
      rw [hpeq, htNo _ hpe_ne]
      exact hm.located e he
    · have hstopOld := (hm.probe_stop k).1
      have hs' : stopSpec (fun i => slotSkip (M.kvs ++ [eN]) k (tN i)) M.tableSize
          (M.hasher k % M.tableSize) p := by
        apply stopSpec_stable _ _ _ _ _ hstopOld (hmono k)
        rw [htNp]
        exact hskipN
      have hpeq : probeIn (M.kvs ++ [eN]) M.hasher M.tableSize tN k = p :=
        probeIn_eq_of_stopSpec _ _ _ _ _ _ hm.tszPos (hexN k) hs'
      rw [show (eN.key : K) = k from rfl, hpeq, htNp]
      exact ⟨rfl, rfl⟩

theorem insert_spec_new {m : HashMap K V} (h : Inv m) {k : K} (hk : k ∉ keysList m) (v : V) :
    Inv (insert m (k, v)) ∧
      (insert m (k, v)).kvs =
        (RebuildTableIfNeeded m).kvs ++ [⟨(RebuildTableIfNeeded m).nextId, k, v⟩] ∧
      (insert m (k, v)).kvsSize = m.kvsSize + 1 ∧
      (insert m (k, v)).elemIndices =
        (RebuildTableIfNeeded m).elemIndices ++ [probePos (RebuildTableIfNeeded m) k] ∧
      (insert m (k, v)).tableSize = (RebuildTableIfNeeded m).tableSize ∧
      (insert m (k, v)).hasher = m.hasher ∧
      (insert m (k, v)).nextId = (RebuildTableIfNeeded m).nextId + 1 ∧
      (RebuildTableIfNeeded m).table (probePos (RebuildTableIfNeeded m) k) =
        Slot.emptySlot := by
  obtain ⟨hm, hkvs1, hhash1, hnid1, hsz1, hload1, _⟩ := rebuild_spec h
  have hkM : k ∉ keysList (RebuildTableIfNeeded m) := by
    unfold keysList at hk ⊢
    rw [hkvs1]
    exact hk
  obtain ⟨hslot, hInvNew⟩ := place_spec hm hkM v hload1
  have hnu : ¬(((RebuildTableIfNeeded m).table
      (probePos (RebuildTableIfNeeded m) k)).is_used = true) := by
    rw [hslot]
    simp [Slot.emptySlot]
  have hred := insert_def_reduce m k v
  rw [if_neg hnu] at hred
  rw [hred]
  have hsz' : (placeEntry (RebuildTableIfNeeded m) k v).kvsSize = m.kvsSize + 1 := by
    show (RebuildTableIfNeeded m).kvsSize + 1 = m.kvsSize + 1
    rw [hsz1]
  exact ⟨hInvNew, rfl, hsz', rfl, rfl, hhash1, rfl, hslot⟩

theorem Inv.insertInv {m : HashMap K V} (h : Inv m) (item : K × V) :
    Inv (insert m item) := by
  rcases item with ⟨k, v⟩
  by_cases hk : k ∈ keysList m
  · rw [insert_spec_mem h hk v]
    exact (rebuild_spec h).1
  · exact (insert_spec_new h hk v).1

end InsertLemmas

section EraseLemmas

variable {K V : Type} [DecidableEq K]

theorem wrap_inj (sz h a b : Nat) (hh : h < sz) (ha : a < sz) (hb : b < sz)
    (he : (h + a) % sz = (h + b) % sz) : a = b := by
  have h1 : (h + a) % sz = if h + a < sz then h + a else h + a - sz := by
    split
    · exact Nat.mod_eq_of_lt (by assumption)
    · rw [Nat.mod_eq_sub_mod (by omega)]
      exact Nat.mod_eq_of_lt (by omega)
  have h2 : (h + b) % sz = if h + b < sz then h + b else h + b - sz := by
    split
    · exact Nat.mod_eq_of_lt (by assumption)
    · rw [Nat.mod_eq_sub_mod (by omega)]
      exact Nat.mod_eq_of_lt (by omega)
  rw [h1, h2] at he
  split_ifs at he <;> omega

theorem erase_def_reduce (m : HashMap K V) (k : K) :
    erase m k =
      (if (m.table (probePos m k)).is_used = true then eraseState m k else m) := rfl

theorem erase_elemIndices (m : HashMap K V) (k : K) :
    (erase m k).elemIndices = m.elemIndices := by
  rw [erase_def_reduce]
  split <;> rfl

theorem erase_tableSize (m : HashMap K V) (k : K) :
    (erase m k).tableSize = m.tableSize := by
  rw [erase_def_reduce]
  split <;> rfl

theorem erase_spec_notMem {m : HashMap K V} (h : Inv m) {k : K} (hk : k ∉ keysList m) :
    erase m k = m := by
  rw [erase_def_reduce]
  rcases h.stop_cases k with ⟨hslot, _⟩ | ⟨hu, e, hme, _, hek⟩
  · rw [if_neg (by simp [hslot, Slot.emptySlot])]
  · exact absurd (mem_keysList.mpr ⟨e, hme, hek⟩) hk

/-- Invariant of the deletion-repair loop: `origT` is the table as it was
before the erase tombstoned anything, `gap` the single tombstone created so
far by this deletion, `kvs'` the backing store with the erased node already
detached, `idxSet` the (unchanged) `elements_indices_`. -/
structure ELoopInv (hasher : K → Nat) (kvs' : List (Entry K V)) (sz h : Nat)
    (idxSet : List Nat) (origT : Nat → Slot) (t : Nat → Slot) (gap : Nat) : Prop where
  gapErased : (t gap).is_erased = true
  gapIdx : gap ∈ idxSet
  offEmpty : ∀ i, i ∉ idxSet → t i = Slot.emptySlot
  onNonEmpty : ∀ i ∈ idxSet, (t i).is_used = true ∨ (t i).is_erased = true
  usedNE : ∀ i, (t i).is_used = true → (t i).is_erased = false
  usedV : ∀ i, (t i).is_used = true → ∃ e ∈ kvs', e.id = (t i).iter
  usedI : ∀ i j, (t i).is_used = true → (t j).is_used = true →
    (t i).iter = (t j).iter → i = j
  hashT : ∀ i, (t i).is_used = true → ∀ e ∈ kvs', e.id = (t i).iter →
    (t i).hash = hasher e.key % sz
  locT : ∀ e ∈ kvs', (t (probeIn kvs' hasher sz t e.key)).is_used = true ∧
    (t (probeIn kvs' hasher sz t e.key)).iter = e.id
  erasedEq : ∀ i, ((t i).is_erased = true ↔ ((origT i).is_erased = true ∨ i = gap))
  gapOrig : (origT gap).is_erased = false
  outB : ∀ i, sz ≤ i → t i = Slot.emptySlot

theorem repairLoop_inv (hasher : K → Nat) (kvs' : List (Entry K V)) (sz h : Nat)
    (idxSet : List Nat) (origT : Nat → Slot)
    (hsz : 0 < sz) (hh : h < sz) (hidxLen : idxSet.length < sz)
    (hkN : (kvs'.map Entry.id).Nodup) (hkkN : (kvs'.map Entry.key).Nodup) :
    ∀ fuel t gap scan sj gj,
      ELoopInv hasher kvs' sz h idxSet origT t gap →
      1 ≤ sj → sj ≤ sz → scan ≤ sz → nrm sz scan = (h + sj) % sz →
      gj < sj → gap = (h + gj) % sz →
      sz - sj + 1 ≤ fuel →
      ∃ gap', ELoopInv hasher kvs' sz h idxSet origT
        (repairLoop sz h t gap scan fuel) gap' := by
  intro fuel
  induction fuel with
  | zero =>
    intro t gap scan sj gj hI h1 h2 h3 h4 h5 h6 h7
    omega
  | succ f ih =>
    intro t gap scan sj gj hI hsj1 hsjsz hscansz hscan hgj hgap hfuel
    have hexT : ∀ x : K, ∃ q, q < sz ∧ slotSkip kvs' x (t q) = false := by
      intro x
      obtain ⟨q1, hq1, hq1m⟩ := exists_lt_notMem idxSet sz hidxLen
      exact ⟨q1, hq1, by rw [hI.offEmpty q1 hq1m]; exact slotSkip_empty _ _⟩
    have hunfold : repairLoop sz h t gap scan (f + 1) =
        if (!(t (nrm sz scan)).is_used) = true then t
        else if nrm sz scan = h then t
        else if (t (nrm sz scan)).hash ≠ h then
          repairLoop sz h t gap (nrm sz scan + 1) f
        else repairLoop sz h
          (setSlot (setSlot t gap (t (nrm sz scan))) (nrm sz scan) Slot.erasedSlot)
          (nrm sz scan) (nrm sz scan + 1) f := rfl
    rw [hunfold, hscan]
    have hslt : (h + sj) % sz < sz := Nat.mod_lt _ hsz
    set s := (h + sj) % sz with hsdef
    cases hu : (t s).is_used with
    | false =>
      rw [if_pos (show (!false) = true from rfl)]
      exact ⟨gap, hI⟩
    | true =>
      rw [if_neg (show ¬((!true) = true) from by decide)]
      by_cases hsh : s = h
      · rw [if_pos hsh]
        exact ⟨gap, hI⟩
      · rw [if_neg hsh]
        have hsjlt : sj < sz := by
          by_contra hge
          have hsj_eq : sj = sz := by omega
          apply hsh
          rw [hsdef, hsj_eq, Nat.add_mod_right]
          exact Nat.mod_eq_of_lt hh
        have hnrm_next : nrm sz (s + 1) = (h + (sj + 1)) % sz := by
          rw [nrm_eq_mod sz (s + 1) (by omega), hsdef, Nat.mod_add_mod]
          congr 1
        by_cases hhash : (t s).hash = h
        · rw [if_neg (fun hc => hc hhash)]
          obtain ⟨eW, heW, hWid⟩ := hI.usedV s hu
          have hWhome : hasher eW.key % sz = h := by
            have hht := hI.hashT s hu eW heW hWid
            rw [← hht]
            exact hhash
          have hgaplt : gap < sz := by
            rw [hgap]
            exact Nat.mod_lt _ hsz
          have hsgap : s ≠ gap := by
            intro hc
            have := wrap_inj sz h sj gj hh hsjlt (by omega)
              (by rw [← hsdef, ← hgap]; exact hc)
            omega
          have hgapNotUsed : (t gap).is_used = false := by
            cases hgu : (t gap).is_used
            · rfl
            · exfalso
              have hne := hI.usedNE gap hgu
              rw [hI.gapErased] at hne
              cases hne
          have htsNE : (t s).is_erased = false := hI.usedNE s hu
          have hsOrig : (origT s).is_erased = false := by
            cases ho : (origT s).is_erased
            · rfl
            · exfalso
              have := (hI.erasedEq s).mpr (Or.inl ho)
              rw [htsNE] at this
              cases this
          set t' := setSlot (setSlot t gap (t s)) s Slot.erasedSlot with htPdef
          have ht's : t' s = Slot.erasedSlot := setSlot_same _ _ _
          have ht'gap : t' gap = t s := by
            rw [htPdef, setSlot_other _ s gap _ (fun hc => hsgap hc.symm)]
            exact setSlot_same _ _ _
          have ht'o : ∀ i, i ≠ gap → i ≠ s → t' i = t i := by
            intro i h1 h2
            rw [htPdef, setSlot_other _ s i _ h2, setSlot_other _ gap i _ h1]
          have hsIdx : s ∈ idxSet := by
            by_contra hc
            rw [hI.offEmpty s hc] at hu
            simp [Slot.emptySlot] at hu
          have hoffE' : ∀ i, i ∉ idxSet → t' i = Slot.emptySlot := by
            intro i hi
            rw [ht'o i (fun hc => hi (hc ▸ hI.gapIdx)) (fun hc => hi (hc ▸ hsIdx))]
            exact hI.offEmpty i hi
          have hexT' : ∀ x : K, ∃ q, q < sz ∧ slotSkip kvs' x (t' q) = false := by
            intro x
            obtain ⟨q1, hq1, hq1m⟩ := exists_lt_notMem idxSet sz hidxLen
            exact ⟨q1, hq1, by rw [hoffE' q1 hq1m]; exact slotSkip_empty _ _⟩
          have hlookW : lookupId kvs' (t s).iter = some eW := by
            rw [← hWid]
            exact lookupId_mem kvs' hkN heW
          have hInv' : ELoopInv hasher kvs' sz h idxSet origT t' s := by
            refine ⟨?_, hsIdx, hoffE', ?_, ?_, ?_, ?_, ?_, ?_, ?_, hsOrig, ?_⟩
            · rw [ht's]
              rfl
            · intro i hi
              by_cases his : i = s
              · right
                rw [his, ht's]
                rfl
              · by_cases hig : i = gap
                · left
                  rw [hig, ht'gap]
                  exact hu
                · rw [ht'o i hig his]
                  exact hI.onNonEmpty i hi
            · intro i hui
              by_cases his : i = s
              · rw [his, ht's] at hui
                cases hui
              · by_cases hig : i = gap
                · rw [hig, ht'gap]
                  exact htsNE
                · rw [ht'o i hig his] at hui ⊢
                  exact hI.usedNE i hui
            · intro i hui
              by_cases his : i = s
              · rw [his, ht's] at hui
                cases hui
              · by_cases hig : i = gap
                · rw [hig, ht'gap]
                  exact ⟨eW, heW, hWid⟩
                · rw [ht'o i hig his] at hui ⊢
                  exact hI.usedV i hui
            · intro i j hui huj hij
              by_cases his : i = s
              · rw [his, ht's] at hui
                cases hui
              · by_cases hjs : j = s
                · rw [hjs, ht's] at huj
                  cases huj
                · by_cases hig : i = gap <;> by_cases hjg : j = gap
                  · rw [hig, hjg]
                  · rw [hig, ht'gap] at hui hij
                    rw [ht'o j hjg hjs] at huj hij
                    exact absurd (hI.usedI s j hu huj hij).symm hjs
                  · rw [hjg, ht'gap] at huj hij
                    rw [ht'o i hig his] at hui hij
                    exact absurd (hI.usedI i s hui hu hij) his
                  · rw [ht'o i hig his] at hui hij
                    rw [ht'o j hjg hjs] at huj hij
                    exact hI.usedI i j hui huj hij
            · intro i hui e he hide
              by_cases his : i = s
              · rw [his, ht's] at hui
                cases hui
              · by_cases hig : i = gap
                · rw [hig, ht'gap] at hide ⊢
                  exact hI.hashT s hu e he hide
                · rw [ht'o i hig his] at hui hide ⊢
                  exact hI.hashT i hui e he hide
            · intro e he
              by_cases heid : e.id = eW.id
              · have heqW : e = eW := List.inj_on_of_nodup_map hkN he heW heid
                subst heqW
                have holdW := hI.locT e he
                have hpW : probeIn kvs' hasher sz t e.key = s :=
                  hI.usedI _ s holdW.1 hu (by rw [holdW.2, hWid])
                have hstopW := probeIn_stopSpec kvs' hasher sz t e.key hsz (hexT e.key)
                rw [hpW, hWhome] at hstopW
                obtain ⟨jw, hjw, hjweq, hjwstop, hjwmin⟩ := hstopW
                have hjwsj : jw = sj :=
                  wrap_inj sz h jw sj hh hjw hsjlt (by rw [← hjweq, hsdef])
                have hnew : stopSpec (fun i => slotSkip kvs' e.key (t' i)) sz
                    (hasher e.key % sz) gap := by
                  rw [hWhome]
                  refine ⟨gj, by omega, hgap, ?_, ?_⟩
                  · show slotSkip kvs' e.key (t' gap) = false
                    rw [ht'gap]
                    unfold slotSkip
                    rw [hlookW]
                    simp [hu, htsNE]
                  · intro j' hj'
                    show slotSkip kvs' e.key (t' ((h + j') % sz)) = true
                    have hq1 : (h + j') % sz ≠ gap := by
                      intro hc
                      have := wrap_inj sz h j' gj hh (by omega) (by omega)
                        (by rw [hc, hgap])
                      omega
                    have hq2 : (h + j') % sz ≠ s := by
                      intro hc
                      have := wrap_inj sz h j' sj hh (by omega) hsjlt
                        (by rw [hc, hsdef])
                      omega
                    rw [ht'o _ hq1 hq2]
                    exact hjwmin j' (by omega)
                have hpeq := probeIn_eq_of_stopSpec kvs' hasher sz t' e.key gap hsz
                  (hexT' e.key) hnew
                rw [hpeq, ht'gap]
                exact ⟨hu, hWid.symm⟩
              · have hkey_ne : eW.key ≠ e.key := by
                  intro hc
                  have heqc : e = eW := List.inj_on_of_nodup_map hkkN he heW hc.symm
                  exact heid (by rw [heqc])
                have holdE := hI.locT e he
                have hstopE := probeIn_stopSpec kvs' hasher sz t e.key hsz (hexT e.key)
                have hpE_gap : probeIn kvs' hasher sz t e.key ≠ gap := by
                  intro hc
                  rw [hc] at holdE
                  rw [hgapNotUsed] at holdE
                  cases holdE.1
                have hpE_s : probeIn kvs' hasher sz t e.key ≠ s := by
                  intro hc
                  rw [hc] at holdE
                  exact heid (by rw [← holdE.2, ← hWid])
                have hmono' : ∀ q, slotSkip kvs' e.key (t q) = true →
                    slotSkip kvs' e.key (t' q) = true := by
                  intro q hq
                  by_cases hq1 : q = gap
                  · rw [hq1]
                    show slotSkip kvs' e.key (t' gap) = true
                    rw [ht'gap]
                    unfold slotSkip
                    rw [hlookW]
                    simp [hu, htsNE, hkey_ne]
                  · by_cases hq2 : q = s
                    · rw [hq2]
                      show slotSkip kvs' e.key (t' s) = true
                      rw [ht's]
                      rfl
                    · rw [ht'o q hq1 hq2]
                      exact hq
                have hsf : slotSkip kvs' e.key
                    (t' (probeIn kvs' hasher sz t e.key)) = false := by
                  rw [ht'o _ hpE_gap hpE_s]
                  obtain ⟨j0, _, _, hstop0, _⟩ := hstopE
                  exact hstop0
                have hstop' := stopSpec_stable _ _ sz (hasher e.key % sz) _ hstopE hmono' hsf
                have hpeq := probeIn_eq_of_stopSpec kvs' hasher sz t' e.key _ hsz
                  (hexT' e.key) hstop'
                rw [hpeq, ht'o _ hpE_gap hpE_s]
                exact holdE
            · intro i
              by_cases his : i = s
              · rw [his, ht's]
                constructor
                · intro _
                  exact Or.inr rfl
                · intro _
                  rfl
              · by_cases hig : i = gap
                · rw [hig, ht'gap]
                  constructor
                  · intro hc
                    rw [htsNE] at hc
                    cases hc
                  · intro hc
                    rcases hc with hc | hc
                    · rw [hI.gapOrig] at hc
                      cases hc
                    · exact absurd hc.symm hsgap
                · rw [ht'o i hig his]
                  have hold := hI.erasedEq i
                  constructor
                  · intro hc
                    rcases hold.mp hc with hc' | hc'
                    · exact Or.inl hc'
                    · exact absurd hc' hig
                  · intro hc
                    rcases hc with hc' | hc'
                    · exact hold.mpr (Or.inl hc')
                    · exact absurd hc' his
            · intro i hi
              have h1 : i ≠ gap := by omega
              have h2 : i ≠ s := by omega
              rw [ht'o i h1 h2]
              exact hI.outB i hi
          exact ih t' s (s + 1) (sj + 1) sj hInv' (by omega) (by omega) (by omega)
            hnrm_next (by omega) hsdef (by omega)
        · rw [if_pos hhash]
          exact ih t gap (s + 1) (sj + 1) gj hI (by omega) (by omega) (by omega)
            hnrm_next (by omega) hgap (by omega)

theorem filter_erase_length (kvs : List (Entry K V))
    (hnd : (kvs.map Entry.id).Nodup) (eK : Entry K V) (heK : eK ∈ kvs) :
    (kvs.filter (fun e => !(decide (e.id = eK.id)))).length + 1 = kvs.length := by
  induction kvs with
  | nil => cases heK
  | cons a tl ih =>
    rw [List.map_cons, List.nodup_cons] at hnd
    rcases List.mem_cons.mp heK with rfl | htl
    · have hdrop : (eK :: tl).filter (fun e => !(decide (e.id = eK.id))) =
          tl.filter (fun e => !(decide (e.id = eK.id))) := by
        simp [List.filter]
      rw [hdrop, List.filter_eq_self.mpr, List.length_cons]
      intro e he
      have : ¬(e.id = eK.id) := by
        intro hc
        exact hnd.1 (hc ▸ List.mem_map_of_mem Entry.id he)
      simp [this]
    · have hane : ¬(a.id = eK.id) := by
        intro hc
        exact hnd.1 (hc ▸ List.mem_map_of_mem Entry.id htl)
      have hkeep : (a :: tl).filter (fun e => !(decide (e.id = eK.id))) =
          a :: tl.filter (fun e => !(decide (e.id = eK.id))) := by
        simp [List.filter, hane]
      rw [hkeep, List.length_cons, List.length_cons]
      rw [← ih hnd.2 htl]

theorem erase_spec_mem {m : HashMap K V} (h : Inv m) {k : K} (hk : k ∈ keysList m) :
    Inv (erase m k) ∧
      (erase m k).kvs = m.kvs.filter (fun e => !(decide (e.key = k))) ∧
      (erase m k).kvsSize + 1 = m.kvsSize ∧
      ∃ g, g < m.tableSize ∧ (m.table g).is_erased = false ∧
        ∀ i, (((erase m k).table i).is_erased = true ↔
          ((m.table i).is_erased = true ∨ i = g)) := by
  obtain ⟨eK, heK, hekK⟩ := mem_keysList.mp hk
  have hloc := h.located eK heK
  rw [hekK] at hloc
  have hred : erase m k = eraseState m k := by
    rw [erase_def_reduce, if_pos hloc.1]
  have hiter : (m.table (probePos m k)).iter = eK.id := hloc.2
  have hp_lt := h.probe_lt k
  obtain ⟨jk, hjk, hjkeq, hjkstop, hjkmin⟩ := (h.probe_stop k).1
  have hmem' : ∀ e, e ∈ m.kvs.filter
      (fun e => !(decide (e.id = (m.table (probePos m k)).iter))) ↔
      (e ∈ m.kvs ∧ ¬(e.id = eK.id)) := by
    intro e
    rw [List.mem_filter, hiter]
    simp
  have hkN' : ((m.kvs.filter
      (fun e => !(decide (e.id = (m.table (probePos m k)).iter)))).map Entry.id).Nodup :=
    h.idsNodup.sublist ((List.filter_sublist m.kvs).map Entry.id)
  have hkkN' : ((m.kvs.filter
      (fun e => !(decide (e.id = (m.table (probePos m k)).iter)))).map Entry.key).Nodup :=
    h.keysNodup.sublist ((List.filter_sublist m.kvs).map Entry.key)
  have hkey' : ∀ e ∈ m.kvs.filter
      (fun e => !(decide (e.id = (m.table (probePos m k)).iter))), e.key ≠ k := by
    intro e he hc
    obtain ⟨hem, hene⟩ := (hmem' e).mp he
    exact hene (by rw [h.entry_key_unique hem heK (by rw [hc, hekK])])
  have hpIdx : probePos m k ∈ m.elemIndices := by
    by_contra hc
    rw [h.emptyOff _ hc] at hloc
    simp [Slot.emptySlot] at hloc
  have hlookK : lookupId m.kvs (m.table (probePos m k)).iter = some eK := by
    rw [hiter]
    exact lookupId_mem m.kvs h.idsNodup heK
  have ht0p : setSlot m.table (probePos m k) Slot.erasedSlot (probePos m k) =
      Slot.erasedSlot := setSlot_same _ _ _
  have ht0o : ∀ i, i ≠ probePos m k →
      setSlot m.table (probePos m k) Slot.erasedSlot i = m.table i :=
    fun i hi => setSlot_other _ _ _ _ hi
  have hiterne : ∀ i, (m.table i).is_used = true → i ≠ probePos m k →
      ¬((m.table i).iter = eK.id) := by
    intro i hui hip hc
    exact hip (h.usedInj i (probePos m k) hui hloc.1 (by rw [hc, hiter]))
  have hskip_eq : ∀ e ∈ m.kvs.filter
      (fun e => !(decide (e.id = (m.table (probePos m k)).iter))), ∀ q,
      slotSkip (m.kvs.filter (fun e => !(decide (e.id = (m.table (probePos m k)).iter))))
        e.key (setSlot m.table (probePos m k) Slot.erasedSlot q) =
      slotSkip m.kvs e.key (m.table q) := by
    intro e he q
    by_cases hqp : q = probePos m k
    · rw [hqp, ht0p]
      have hLHS : slotSkip (m.kvs.filter
          (fun e => !(decide (e.id = (m.table (probePos m k)).iter)))) e.key
          Slot.erasedSlot = true := rfl
      rw [hLHS]
      have hdk : (decide (eK.key = e.key)) = false := by
        rw [hekK]
        exact decide_eq_false (fun hc => (hkey' e he) hc.symm)
      unfold slotSkip
      rw [hlookK, hloc.1, h.usedNotErased _ hloc.1]
      simp [Option.any, hdk]
    · rw [ht0o q hqp]
      cases huq : (m.table q).is_used with
      | false =>
        unfold slotSkip
        rw [huq]
        simp
      | true =>
        unfold slotSkip
        rw [lookupId_filter m.kvs (m.table (probePos m k)).iter (m.table q).iter
          (fun hc => hiterne q huq hqp (hc.trans hiter))]
  have hI0 : ELoopInv m.hasher
      (m.kvs.filter (fun e => !(decide (e.id = (m.table (probePos m k)).iter))))
      m.tableSize (GetHash m k) m.elemIndices m.table
      (setSlot m.table (probePos m k) Slot.erasedSlot) (probePos m k) := by
    refine ⟨?_, hpIdx, ?_, ?_, ?_, ?_, ?_, ?_, ?_, ?_, ?_, ?_⟩
    · rw [ht0p]
      rfl
    · intro i hi
      rw [ht0o i (fun hc => hi (hc ▸ hpIdx))]
      exact h.emptyOff i hi
    · intro i hi
      by_cases hip : i = probePos m k
      · right
        rw [hip, ht0p]
        rfl
      · rw [ht0o i hip]
        exact h.nonEmptyOn i hi
    · intro i hui
      by_cases hip : i = probePos m k
      · rw [hip, ht0p] at hui
        cases hui
      · rw [ht0o i hip] at hui ⊢
        exact h.usedNotErased i hui
    · intro i hui
      by_cases hip : i = probePos m k
      · rw [hip, ht0p] at hui
        cases hui
      · rw [ht0o i hip] at hui ⊢
        obtain ⟨e0, he0, hid0⟩ := h.usedValid i hui
        have hne0 : ¬(e0.id = eK.id) := by
          rw [hid0]
          exact hiterne i hui hip
        exact ⟨e0, (hmem' e0).mpr ⟨he0, hne0⟩, hid0⟩
    · intro i j hui huj hij
      by_cases hip : i = probePos m k
      · rw [hip, ht0p] at hui
        cases hui
      · by_cases hjp : j = probePos m k
        · rw [hjp, ht0p] at huj
          cases huj
        · rw [ht0o i hip] at hui hij
          rw [ht0o j hjp] at huj hij
          exact h.usedInj i j hui huj hij
    · intro i hui e he hide
      by_cases hip : i = probePos m k
      · rw [hip, ht0p] at hui
        cases hui
      · rw [ht0o i hip] at hui hide ⊢
        exact h.hashOk i hui e ((hmem' e).mp he).1 hide
    · intro e he
      have hef := (hmem' e).mp he
      have holdE := h.located e hef.1
      have hpe_ne : probePos m e.key ≠ probePos m k := by
        intro hc
        apply hef.2
        rw [← holdE.2, hc, hiter]
      have hstopE := (h.probe_stop e.key).1
      have hstop' : stopSpec (fun i =>
          slotSkip (m.kvs.filter (fun e => !(decide (e.id = (m.table (probePos m k)).iter))))
            e.key (setSlot m.table (probePos m k) Slot.erasedSlot i)) m.tableSize
          (m.hasher e.key % m.tableSize) (probePos m e.key) := by
        apply stopSpec_stable _ _ _ _ _ hstopE
        · intro q hq
          rw [hskip_eq e he q]
          exact hq
        · rw [hskip_eq e he _]
          exact h.probe_not_skip e.key
      have hex0 : ∃ q, q < m.tableSize ∧
          slotSkip (m.kvs.filter (fun e => !(decide (e.id = (m.table (probePos m k)).iter))))
            e.key (setSlot m.table (probePos m k) Slot.erasedSlot q) = false := by
        obtain ⟨q1, hq1, hq1m⟩ := exists_lt_notMem m.elemIndices m.tableSize h.load
        refine ⟨q1, hq1, ?_⟩
        rw [ht0o q1 (fun hc => hq1m (hc ▸ hpIdx)), h.emptyOff q1 hq1m]
        exact slotSkip_empty _ _
      have hpeq := probeIn_eq_of_stopSpec _ m.hasher m.tableSize _ e.key _ h.tszPos
        hex0 hstop'
      rw [hpeq, ht0o _ hpe_ne]
      exact holdE
    · intro i
      by_cases hip : i = probePos m k
      · rw [hip, ht0p]
        constructor
        · intro _
          exact Or.inr rfl
        · intro _
          rfl
      · rw [ht0o i hip]
        constructor
        · intro hc
          exact Or.inl hc
        · intro hc
          rcases hc with hc | hc
          · exact hc
          · exact absurd hc hip
    · exact h.usedNotErased _ hloc.1
    · intro i hi
      rw [ht0o i (by omega)]
      exact h.outBounds i hi
  have hnrm_init : nrm m.tableSize (probePos m k + 1) =
      (GetHash m k + (jk + 1)) % m.tableSize := by
    rw [nrm_eq_mod _ _ (by omega), hjkeq, Nat.mod_add_mod]
    congr 1
  obtain ⟨gF, hF⟩ := repairLoop_inv m.hasher
    (m.kvs.filter (fun e => !(decide (e.id = (m.table (probePos m k)).iter))))
    m.tableSize (GetHash m k) m.elemIndices m.table h.tszPos (h.hashLt k) h.load
    hkN' hkkN' m.tableSize (setSlot m.table (probePos m k) Slot.erasedSlot)
    (probePos m k) (probePos m k + 1) (jk + 1) jk hI0 (by omega) (by omega) (by omega)
    hnrm_init (by omega) hjkeq (by omega)
  have hflen : (m.kvs.filter
      (fun e => !(decide (e.id = (m.table (probePos m k)).iter)))).length + 1 =
      m.kvs.length := by
    simp only [hiter]
    exact filter_erase_length m.kvs h.idsNodup eK heK
  have hlen1 : 1 ≤ m.kvsSize := by
    rw [h.sizeEq]
    omega
  rw [hred]
  refine ⟨?_, ?_, ?_, ⟨gF, h.idxLt gF hF.gapIdx, hF.gapOrig, hF.erasedEq⟩⟩
  · exact ⟨h.tsz, hF.outB, by
      show m.kvsSize - 1 = (m.kvs.filter
        (fun e => !(decide (e.id = (m.table (probePos m k)).iter)))).length
      have := h.sizeEq
      omega,
      hkN', fun e he => h.idsLt e ((hmem' e).mp he).1, hkkN', h.idxNodup, h.idxLt,
      hF.offEmpty, hF.onNonEmpty, h.load, hF.usedNE, hF.usedV, hF.usedI, hF.hashT, hF.locT⟩
  · show m.kvs.filter (fun e => !(decide (e.id = (m.table (probePos m k)).iter))) =
      m.kvs.filter (fun e => !(decide (e.key = k)))
    apply List.filter_congr
    intro e hem
    have hiff : (decide (e.id = (m.table (probePos m k)).iter)) = (decide (e.key = k)) := by
      rw [hiter]
      by_cases hc : e.id = eK.id
      · have heeq : e = eK := List.inj_on_of_nodup_map h.idsNodup hem heK hc
        simp [hc, heeq, hekK]
      · have hkne : e.key ≠ k := fun hck =>
          hc (by rw [h.entry_key_unique hem heK (by rw [hck, hekK])])
        simp [hc, hkne]
    rw [hiff]
  · show m.kvsSize - 1 + 1 = m.kvsSize
    omega

end EraseLemmas

section ReachableLemmas

variable {K V : Type} [DecidableEq K]

/-- The representation invariant holds in every reachable state. -/
theorem inv_of_reachable {m : HashMap K V} (h : Reachable m) : Inv m := by
  induction h with
  | new hasher => exact inv_new hasher
  | insert m item hm ih => exact ih.insertInv item
  | erase m key hm ih =>
    by_cases hk : key ∈ keysList m
    · exact (erase_spec_mem ih hk).1
    · rw [erase_spec_notMem ih hk]
      exact ih
  | clear m hm ih => exact ih.clearInv

theorem insert_keysList_new {m : HashMap K V} (h : Inv m) {k : K}
    (hk : k ∉ keysList m) (v : V) :
    keysList (insert m (k, v)) = keysList m ++ [k] := by
  have hspec := insert_spec_new h hk v
  unfold keysList
  rw [hspec.2.1, (rebuild_spec h).2.1, List.map_append]
  rfl

theorem insertList_keys (l : List (K × V)) : ∀ m : HashMap K V, Inv m →
    (∀ p ∈ l, p.1 ∉ keysList m) → (l.map Prod.fst).Nodup →
    keysList (insertList m l) = keysList m ++ l.map Prod.fst := by
  induction l with
  | nil =>
    intro m hm _ _
    simp [insertList]
  | cons p l' ih =>
    intro m hm hdis hnd
    obtain ⟨k, v⟩ := p
    rw [show insertList m ((k, v) :: l') = insertList (insert m (k, v)) l' from rfl]
    have hk : k ∉ keysList m := hdis (k, v) (List.mem_cons_self _ _)
    have hkeys := insert_keysList_new hm hk v
    rw [List.map_cons, List.nodup_cons] at hnd
    have hdis' : ∀ p' ∈ l', p'.1 ∉ keysList (insert m (k, v)) := by
      intro p' hp' hc
      rw [hkeys, List.mem_append, List.mem_singleton] at hc
      rcases hc with hc | hc
      · exact hdis p' (List.mem_cons_of_mem _ hp') hc
      · exact hnd.1 (List.mem_map.mpr ⟨p', hp', hc⟩)
    rw [ih (insert m (k, v)) (hm.insertInv _) hdis' hnd.2, hkeys, List.append_assoc]
    rfl

theorem reachable_exM2 : Reachable exM2 :=
  Reachable.insert _ _ (Reachable.insert _ _ (Reachable.new _))

theorem reachable_exErased2 : Reachable exErased2 :=
  Reachable.erase _ _ (Reachable.erase _ _ reachable_exM2)

theorem reachable_exCluster : Reachable exCluster :=
  Reachable.insert _ _ (Reachable.insert _ _ (Reachable.insert _ _ (Reachable.new _)))

end ReachableLemmas

example : size exM2 = 2 ∧ exM2.tableSize = 3 := by decide
example : exM3.tableSize = 4 ∧ size exM3 = 3 := by decide
example : size exErased2 = 0 ∧ exErased2.elemIndices.length = 2 := by decide
example : find exM2 1 = some ⟨1, 1, 11⟩ ∧ find exM2 5 = none := by decide
example : keysList exCluster = [1, 2, 3] := by decide
example : find (erase exCluster 1) 2 = some ⟨1, 2, 20⟩ ∧
    find (erase exCluster 1) 3 = some ⟨2, 3, 30⟩ ∧
    find (erase exCluster 1) 1 = none := by decide
example : ((erase exCluster 1).table 0).is_used = true ∧
    ((erase exCluster 1).table 1).is_used = true ∧
    ((erase exCluster 1).table 2).is_erased = true ∧
    (erase exCluster 1).table 3 = Slot.emptySlot := by decide

section Claims

variable {K V : Type} [DecidableEq K]

theorem loadFactor_lt_iff (a b : Nat) (hb : 0 < b) :
    (((a : ℚ) + 1) / (b : ℚ) < 3 / 4) ↔ 4 * (a + 1) < 3 * b := by
  rw [div_lt_div_iff₀ (by exact_mod_cast hb) (by norm_num)]
  constructor
  · intro hlt
    have h2 : ((4 * (a + 1) : ℕ) : ℚ) < ((3 * b : ℕ) : ℚ) := by
      push_cast
      linarith
    exact_mod_cast h2
  · intro hlt
    have h2 : ((4 * (a + 1) : ℕ) : ℚ) < ((3 * b : ℕ) : ℚ) := by exact_mod_cast hlt
    push_cast at h2
    linarith

/-- C1: full contract of `erase(key)` on every reachable container state.
If `key` is absent the operation is a silent no-op leaving the state
unchanged.  If `key` is present, erase removes exactly that entry from the
backing store (all other entries survive in order), every other previously
inserted non-erased key remains findable with its stored value, and the
deletion-repair loop produces exactly one Tombstone: a single final gap
position `g` that was not a Tombstone before is the only slot this deletion
turns into a Tombstone. -/
theorem claim_C1_erase_contract (m : HashMap K V) (hm : Reachable m) (key : K) :
    (key ∉ keysList m → erase m key = m) ∧
    (key ∈ keysList m →
      (erase m key).kvs = m.kvs.filter (fun e => !(decide (e.key = key))) ∧
      size (erase m key) + 1 = size m ∧
      (∀ e ∈ m.kvs, e.key ≠ key → find (erase m key) e.key = some e) ∧
      ∃ g, g < m.tableSize ∧ (m.table g).is_erased = false ∧
        ∀ i, (((erase m key).table i).is_erased = true ↔
          ((m.table i).is_erased = true ∨ i = g))) := by
  have h := inv_of_reachable hm
  constructor
  · exact fun hk => erase_spec_notMem h hk
  · intro hk
    obtain ⟨hInv', hkvs, hsize, htomb⟩ := erase_spec_mem h hk
    refine ⟨hkvs, hsize, ?_, htomb⟩
    intro e he hene
    have hmem : e ∈ (erase m key).kvs := by
      rw [hkvs, List.mem_filter]
      exact ⟨he, by simp [hene]⟩
    exact hInv'.find_mem hmem

theorem claim_C1_witness :
    find (erase exCluster 1) 2 = some ⟨1, 2, 20⟩ ∧
      find (erase exCluster 1) 3 = some ⟨2, 3, 30⟩ :=
  ⟨(claim_C1_erase_contract exCluster reachable_exCluster 1).2 (by decide) |>.2.2.1
      ⟨1, 2, 20⟩ (by decide) (by decide),
    (claim_C1_erase_contract exCluster reachable_exCluster 1).2 (by decide) |>.2.2.1
      ⟨2, 3, 30⟩ (by decide) (by decide)⟩

/-- C2: the copy constructor of `HashMap` is the implicitly-defaulted
member-wise copy (the class declares only `operator=`), so a copy `b = a`
receives a bitwise copy of `table_` whose iterators still point into `a`'s
backing list.  At the failing input — `a` holding `(1, 10)` under the
identity hasher, then `a.erase(1)` — the slot that `b` holds for key 1 is
Occupied and its stored iterator resolved to the node `(1, 10)` before the
erase, but after `a.erase(1)` destroys that node the same stored reference no
longer resolves in the owning store: `b.find(1)` dereferences a dangling
iterator instead of still locating key 1 with its original value in an
independent container, contradicting the specified copy independence. -/
theorem claim_C2_copy_ctor_dangling :
    (exA.table (probePos exA 1)).is_used = true ∧
      lookupId exA.kvs ((exA.table (probePos exA 1)).iter) = some ⟨0, 1, 10⟩ ∧
      lookupId ((erase exA 1).kvs) ((exA.table (probePos exA 1)).iter) = none := by
  decide

/-- C3 (amended): `clear()` resets the container to the empty state — no
entries remain (`size() == 0`, `empty()`, `begin() == end()`, the backing
store is empty) — and sets the capacity to `max(table_size, 3)`: at least the
initial floor 3, but it never shrinks a previously grown table back to 3. -/
theorem claim_C3_clear_amended (m : HashMap K V) :
    size (clear m) = 0 ∧ isEmptyMap (clear m) = true ∧ (clear m).kvs = [] ∧
      (clear m).tableSize = max m.tableSize 3 ∧ 3 ≤ (clear m).tableSize :=
  ⟨rfl, rfl, rfl, rfl, le_max_right _ _⟩

/-- C3 counterexample: after three insertions the capacity has grown to 4;
`clear()` empties the container but keeps capacity 4 — it is not reset to the
initial floor 3, because the code computes `max(table_size_, 3)`. -/
theorem claim_C3_clear_counterexample :
    size (clear exM3) = 0 ∧ exM3.tableSize = 4 ∧ (clear exM3).tableSize = 4 ∧
      ¬((clear exM3).tableSize = 3) := by decide

/-- C4 (amended): the rehash decision before an insertion is driven by the
Occupied-plus-Tombstone slot count (`elements_indices_.size()`, equal to
`usedCount`), not by the number of live entries: the table is rebuilt iff
`(used_count + 1) / table_size ≥ 0.75`; when it rebuilds, the new capacity is
exactly `2 * used_count`, which is at least double the live count, and growth
never shrinks the capacity. -/
theorem claim_C4_growth_trigger (m : HashMap K V) (hm : Reachable m) :
    ((((usedCount m : ℚ) + 1) / (m.tableSize : ℚ) < 3 / 4) →
      RebuildTableIfNeeded m = m) ∧
    (¬(((usedCount m : ℚ) + 1) / (m.tableSize : ℚ) < 3 / 4) →
      (RebuildTableIfNeeded m).tableSize = 2 * usedCount m ∧
      2 * size m ≤ (RebuildTableIfNeeded m).tableSize) ∧
    m.tableSize ≤ (RebuildTableIfNeeded m).tableSize := by
  have h := inv_of_reachable hm
  have hQ : (((usedCount m : ℚ) + 1) / (m.tableSize : ℚ) < 3 / 4) ↔
      4 * (m.elemIndices.length + 1) < 3 * m.tableSize := by
    rw [h.usedCount_eq]
    exact loadFactor_lt_iff _ _ h.tszPos
  refine ⟨?_, ?_, (rebuild_spec h).2.2.2.2.2.2⟩
  · intro hq
    have hcond := hQ.mp hq
    unfold RebuildTableIfNeeded
    rw [if_pos hcond]
  · intro hq
    have hcond : ¬(4 * (m.elemIndices.length + 1) < 3 * m.tableSize) := fun hc =>
      hq (hQ.mpr hc)
    have hts' : (RebuildTableIfNeeded m).tableSize = m.elemIndices.length * 2 := by
      unfold RebuildTableIfNeeded
      rw [if_neg hcond]
    constructor
    · rw [hts', h.usedCount_eq]
      exact Nat.mul_comm _ _
    · rw [hts']
      have hle : m.kvs.length ≤ m.elemIndices.length := h.kvs_le_idx
      show 2 * m.kvsSize ≤ _
      rw [h.sizeEq]
      omega

theorem claim_C4_witness :
    (RebuildTableIfNeeded exErased2).tableSize = 2 * usedCount exErased2 ∧
      2 * size exErased2 ≤ (RebuildTableIfNeeded exErased2).tableSize :=
  (claim_C4_growth_trigger exErased2 reachable_exErased2).2.1 (by
    rw [show usedCount exErased2 = 2 from by decide,
      show exErased2.tableSize = 3 from by decide]
    norm_num)

/-- C4 counterexample: after inserting two keys and erasing both, the
container has zero live entries, so the claim's trigger
`(n + 1) / table_size ≥ 0.75` is false — `(0 + 1) / 3 < 0.75` — yet the code
does rehash on the next insertion (`RebuildTableIfNeeded` grows the table
from 3 to 4), because it counts the two tombstoned slots. -/
theorem claim_C4_counterexample :
    size exErased2 = 0 ∧ exErased2.tableSize = 3 ∧
      (((size exErased2 : ℚ) + 1) / (exErased2.tableSize : ℚ) < 3 / 4) ∧
      (RebuildTableIfNeeded exErased2).tableSize = 4 := by
  refine ⟨by decide, by decide, ?_, by decide⟩
  rw [show size exErased2 = 0 from by decide, show exErased2.tableSize = 3 from by decide]
  norm_num

/-- C5 (amended): what the eager pre-insert rehash actually guarantees is
weaker than the stated bound: in every reachable state, and in particular
immediately after any insertion, the Occupied-plus-Tombstone count stays
strictly below the capacity, i.e. at least one Empty slot always remains.
The stated bound `(used_count + 1) / table_size < 0.75` fails right after an
insertion (see the counterexample): the check runs before the placement, with
the pre-insertion count. -/
theorem claim_C5_load_invariant (m : HashMap K V) (hm : Reachable m) (item : K × V) :
    usedCount m < m.tableSize ∧
      usedCount (insert m item) < (insert m item).tableSize := by
  have h := inv_of_reachable hm
  have h' := h.insertInv item
  constructor
  · rw [h.usedCount_eq]
    exact h.load
  · rw [h'.usedCount_eq]
    exact h'.load

theorem claim_C5_witness :
    usedCount exM2 < exM2.tableSize ∧
      usedCount (insert exM2 (5, 5)) < (insert exM2 (5, 5)).tableSize :=
  claim_C5_load_invariant exM2 reachable_exM2 (5, 5)

/-- C5 counterexample: `exM2` is the state immediately after an insertion
(the second insert into a fresh identity-hashed map); it has two Occupied
slots and capacity 3, so `(used_count + 1) / table_size = 1 ≥ 0.75`,
violating the claimed post-insertion bound. -/
theorem claim_C5_counterexample :
    exM2 = insert (insert (hashMapNew Nat Nat (fun n => n)) (0, 10)) (1, 11) ∧
      usedCount exM2 = 2 ∧ exM2.tableSize = 3 ∧
      ¬(((usedCount exM2 : ℚ) + 1) / (exM2.tableSize : ℚ) < 3 / 4) := by
  refine ⟨rfl, by decide, by decide, ?_⟩
  rw [show usedCount exM2 = 2 from by decide, show exM2.tableSize = 3 from by decide]
  norm_num

/-- C6: on every reachable state and for every key, probe resolution
terminates and is fuel-independent (any fuel of at least `table_size` yields
the same stop position, because at least one Empty slot always exists), never
mutates anything (it is a pure function of the state), and stops at either an
Empty slot — in which case the key is absent — or an Occupied slot whose
stored key equals the queried key. -/
theorem claim_C6_probe_resolution (m : HashMap K V) (hm : Reachable m) (key : K) :
    (∃ q, q < m.tableSize ∧ m.table q = Slot.emptySlot) ∧
    (∀ fuel, m.tableSize ≤ fuel →
      probeFrom (skipFn m key) m.tableSize (GetHash m key) fuel = probePos m key) ∧
    ((m.table (probePos m key) = Slot.emptySlot ∧ key ∉ keysList m) ∨
      ((m.table (probePos m key)).is_used = true ∧
        ∃ e ∈ m.kvs, e.id = (m.table (probePos m key)).iter ∧ e.key = key)) := by
  have h := inv_of_reachable hm
  exact ⟨h.existsEmpty, (h.probe_stop key).2, h.stop_cases key⟩

theorem claim_C6_witness :
    probeFrom (skipFn exM2 0) exM2.tableSize (GetHash exM2 0) 10 = probePos exM2 0 :=
  (claim_C6_probe_resolution exM2 reachable_exM2 0).2.1 10 (by decide)

/-- C7: absence reporting on every reachable state: `at(k)` fails with
KeyNotFound (modelled by `none`) iff `k` is not present, and returns the
stored value otherwise; `find(k)` returns the end iterator (`none`) iff `k`
is not present; after `erase(k)` both `find(k) = none` and `at(k) = none`,
and re-inserting `k` with value `v` makes `at(k)` return `v` again. -/
theorem claim_C7_absence (m : HashMap K V) (hm : Reachable m) (key : K) (v : V) :
    (atKey m key = none ↔ key ∉ keysList m) ∧
    (∀ e ∈ m.kvs, e.key = key → atKey m key = some e.value) ∧
    (find m key = none ↔ key ∉ keysList m) ∧
    find (erase m key) key = none ∧ atKey (erase m key) key = none ∧
    atKey (insert (erase m key) (key, v)) key = some v := by
  have h := inv_of_reachable hm
  have hEInv := inv_of_reachable (Reachable.erase m key hm)
  have hknot : key ∉ keysList (erase m key) := by
    by_cases hk : key ∈ keysList m
    · obtain ⟨_, hkvs, _, _⟩ := erase_spec_mem h hk
      unfold keysList
      rw [hkvs]
      intro hc
      obtain ⟨e, he, hek⟩ := List.mem_map.mp hc
      rw [List.mem_filter] at he
      exact absurd hek (by simpa using he.2)
    · rw [erase_spec_notMem h hk]
      exact hk
  refine ⟨h.atKey_none_iff key, ?_, h.find_eq_none_iff key, hEInv.find_notMem hknot,
    (hEInv.atKey_none_iff key).mpr hknot, ?_⟩
  · intro e he hek
    rw [← hek]
    exact h.atKey_mem he
  · have hspec := insert_spec_new hEInv hknot v
    have hmemN : (⟨(RebuildTableIfNeeded (erase m key)).nextId, key, v⟩ : Entry K V) ∈
        (insert (erase m key) (key, v)).kvs := by
      rw [hspec.2.1]
      exact List.mem_append_right _ (List.mem_cons_self _ _)
    exact hspec.1.atKey_mem hmemN

theorem claim_C7_witness :
    find (erase exM2 0) 0 = none ∧
      atKey (insert (erase exM2 0) (0, 77)) 0 = some 77 :=
  ⟨(claim_C7_absence exM2 reachable_exM2 0 77).2.2.2.1,
    (claim_C7_absence exM2 reachable_exM2 0 77).2.2.2.2.2⟩

/-- C8: first-write-wins on every reachable state: if `k` is already present,
`insert(k, v2)` leaves the mapping observably unchanged — identical backing
store, identical size, identical `find` results for every key (only an
eventual rehash may reorganise the internal index); in particular of the
sequence `insert(k, v1); insert(k, v2)` on a state not containing `k`, the
second insert is a no-op, `at(k)` stays `v1` and `k` is counted once. -/
theorem claim_C8_first_write_wins (m : HashMap K V) (hm : Reachable m)
    (k : K) (v1 v2 : V) :
    (k ∈ keysList m →
      (insert m (k, v2)).kvs = m.kvs ∧ size (insert m (k, v2)) = size m ∧
      ∀ k', find (insert m (k, v2)) k' = find m k') ∧
    (k ∉ keysList m →
      atKey (insert (insert m (k, v1)) (k, v2)) k = some v1 ∧
      size (insert (insert m (k, v1)) (k, v2)) = size m + 1) := by
  have h := inv_of_reachable hm
  constructor
  · intro hk
    have heq := insert_spec_mem h hk v2
    have hR := rebuild_spec h
    rw [heq]
    exact ⟨hR.2.1, hR.2.2.2.2.1, fun k' => find_congr_kvs h hR.1 hR.2.1 k'⟩
  · intro hk
    have hspec1 := insert_spec_new h hk v1
    have h1 := hspec1.1
    have hmem1 : (⟨(RebuildTableIfNeeded m).nextId, k, v1⟩ : Entry K V) ∈
        (insert m (k, v1)).kvs := by
      rw [hspec1.2.1]
      exact List.mem_append_right _ (List.mem_cons_self _ _)
    have hk1 : k ∈ keysList (insert m (k, v1)) := mem_keysList.mpr ⟨_, hmem1, rfl⟩
    have heq2 := insert_spec_mem h1 hk1 v2
    have hR1 := rebuild_spec h1
    constructor
    · rw [heq2]
      have hmem1' : (⟨(RebuildTableIfNeeded m).nextId, k, v1⟩ : Entry K V) ∈
          (RebuildTableIfNeeded (insert m (k, v1))).kvs := by
        rw [hR1.2.1]
        exact hmem1
      exact hR1.1.atKey_mem hmem1'
    · rw [heq2]
      show (RebuildTableIfNeeded (insert m (k, v1))).kvsSize = m.kvsSize + 1
      rw [hR1.2.2.2.2.1]
      exact hspec1.2.2.1

theorem claim_C8_witness :
    atKey (insert (insert exM2 (5, 1)) (5, 2)) 5 = some 1 ∧
      size (insert (insert exM2 (5, 1)) (5, 2)) = size exM2 + 1 :=
  (claim_C8_first_write_wins exM2 reachable_exM2 5 1 2).2 (by decide)

/-- C9: insertion-order iteration: inserting any sequence of pairs with
pairwise distinct keys into a fresh container (no erasures) makes the
iteration from `begin()` to `end()` yield exactly those keys in insertion
order; rehashes triggered along the way never touch the backing store, so
the order is unaffected by growth. -/
theorem claim_C9_insertion_order (hasher : K → Nat) (l : List (K × V))
    (hnd : (l.map Prod.fst).Nodup) :
    keysList (insertList (hashMapNew K V hasher) l) = l.map Prod.fst := by
  rw [insertList_keys l (hashMapNew K V hasher) (inv_new hasher) ?_ hnd]
  · rfl
  · intro p hp hc
    exact List.not_mem_nil p.1 hc

theorem claim_C9_witness :
    keysList (insertList (hashMapNew Nat Nat (fun n => n)) [(3, 30), (1, 10), (2, 20)]) =
      [3, 1, 2] :=
  claim_C9_insertion_order (fun n => n) [(3, 30), (1, 10), (2, 20)] (by decide)

/-- C10: on every reachable state, the probe never stops on a Tombstone, so
an insertion can only place a new entry on an Empty slot (whenever `insert`
actually grows the store, the stop slot of the post-rehash probe was Empty);
and the rehash trigger quantity `elements_indices_.size()` equals the number
of Occupied-plus-Tombstone slots, which `erase` leaves unchanged — an erased
slot stays consumed and keeps counting toward the load factor until the next
rebuild or clear, even though `size()` drops. -/
theorem claim_C10_tombstone_accounting (m : HashMap K V) (hm : Reachable m)
    (k : K) (v : V) :
    (¬((RebuildTableIfNeeded m).table
        (probePos (RebuildTableIfNeeded m) k)).is_erased = true) ∧
    ((insert m (k, v)).kvsSize ≠ m.kvsSize →
      (RebuildTableIfNeeded m).table (probePos (RebuildTableIfNeeded m) k) =
        Slot.emptySlot) ∧
    usedCount m = m.elemIndices.length ∧
    (erase m k).elemIndices = m.elemIndices ∧
    usedCount (erase m k) = usedCount m := by
  have h := inv_of_reachable hm
  have hR := rebuild_spec h
  refine ⟨?_, ?_, h.usedCount_eq, erase_elemIndices m k, ?_⟩
  · have hns := hR.1.probe_not_skip k
    rw [slotSkip_eq_false_iff] at hns
    rw [hns.1]
    simp
  · intro hne
    by_cases hk : k ∈ keysList m
    · exfalso
      apply hne
      rw [insert_spec_mem h hk v]
      exact hR.2.2.2.2.1
    · exact (insert_spec_new h hk v).2.2.2.2.2.2.2
  · have hEInv := inv_of_reachable (Reachable.erase m k hm)
    rw [hEInv.usedCount_eq, h.usedCount_eq, erase_elemIndices m k]

theorem claim_C10_witness :
    usedCount exM2 = exM2.elemIndices.length ∧
      usedCount (erase exM2 0) = usedCount exM2 :=
  ⟨(claim_C10_tombstone_accounting exM2 reachable_exM2 0 0).2.2.1,
    (claim_C10_tombstone_accounting exM2 reachable_exM2 0 0).2.2.2.2⟩

end Claims

end HM
